import Mathlib

/-!
# Verification development for `tools/timing/timing.go` (package `timing`)

The Go package keeps, per method name, four running `int64` numbers
(`Count`, `Total`, `Max`, `Min`) inside a `Timing` aggregator and reports them
through `GetMethodData`.

Embedding conventions

* `int64` values are mathematical integers (`Int`) in the range
  `minInt64 .. maxInt64`; every arithmetic operation of the source that can
  leave the range is followed by `wrap64` (two's complement wrap-around, as the
  Go specification prescribes for signed integers).
* The Go map `map[string]*Waiting` is an association list searched from the
  front.  A list stands for a Go map when its keys are pairwise distinct
  (`MapWF`); the operations keep that property.  Updating through the pointer
  stored in the map is modelled by storing the updated record back under the
  same key, at the same position.  Go leaves the iteration order of a map
  unspecified; the list order is one admissible order.
* `Timing` values are those built by `NewTiming` (the map is allocated).
  The development is sequential; the mutex is made explicit where a claim asks
  whether a call returns (section "`Do` with the mutex").
* A Go `func()` is a (possibly nil) state transformer on a `World`, which
  contains the aggregator itself, so that the work may call back into it.
  A call either returns or panics.
* `time.Now()` reads a clock given as a sequence of monotonic readings in
  nanoseconds; each call consumes one reading.
-/

namespace timing

/-! ## int64 arithmetic -/

/-- Smallest `int64`. -/
def minInt64 : Int := -9223372036854775808

/-- Largest `int64`. -/
def maxInt64 : Int := 9223372036854775807

/-- The integer `x` is representable as an `int64`. -/
def isInt64 (x : Int) : Prop := minInt64 ≤ x ∧ x ≤ maxInt64

instance (x : Int) : Decidable (isInt64 x) := by
  unfold isInt64
  exact inferInstance

/-- Two's complement wrap-around of an integer into the `int64` range. -/
def wrap64 (x : Int) : Int :=
  (x + 9223372036854775808) % 18446744073709551616 - 9223372036854775808

/-- Go's `a / b` on `int64`: panics (`none`) when `b = 0`, otherwise the quotient
truncated toward zero, wrapped (the only wrapping case is `minInt64 / -1`). -/
def goDiv64 (a b : Int) : Option Int :=
  if b = 0 then none else some (wrap64 (Int.tdiv a b))

/-! ## Data model -/

/-- Go: `type Waiting struct { Count, Total, Max, Min int64 }`. -/
structure Waiting where
  Count : Int
  Total : Int
  Max : Int
  Min : Int
  deriving DecidableEq, Repr

/-- The Go map `map[string]*Waiting` as an association list. -/
abbrev Methods := List (String × Waiting)

/-- Go: `w, ok := m[key]`; `none` stands for `ok = false`. -/
def mapLookup : Methods → String → Option Waiting
  | [], _ => none
  | (k, w) :: rest, key => if k = key then some w else mapLookup rest key

/-- Go: `m[key] = v` (insertion), and also the write-back of an entry that was
updated through its pointer. -/
def mapStore : Methods → String → Waiting → Methods
  | [], key, v => [(key, v)]
  | (k, w) :: rest, key, v =>
    if k = key then (k, v) :: rest else (k, w) :: mapStore rest key v

/-- The keys of the map, in list order. -/
def mapKeys (m : Methods) : List String := m.map Prod.fst

/-- The list is a Go map: no key occurs twice. -/
def MapWF (m : Methods) : Prop := (mapKeys m).Nodup

/-- Go: `type Timing struct { Enable bool; mutex sync.Mutex; methods map[string]*Waiting }`. -/
structure Timing where
  Enable : Bool
  methods : Methods
  deriving DecidableEq, Repr

/-- Go: `func NewTiming(enable bool) *Timing`. -/
def NewTiming (enable : Bool) : Timing :=
  { Enable := enable, methods := [] }

/-- Go: `func (t *Timing) enable() bool`. -/
def Timing.enable (t : Timing) : Bool := t.Enable

/-- Go: `func (t *Timing) waiting(method string, nano int64)`. -/
def Timing.waiting (t : Timing) (method : String) (nano : Int) : Timing :=
  match mapLookup t.methods method with
  | none =>
    let fresh : Waiting := { Count := 1, Total := nano, Max := nano, Min := nano }
    { t with methods := mapStore t.methods method fresh }
  | some w =>
    let w1 : Waiting := { w with Total := wrap64 (w.Total + nano) }
    let w2 : Waiting := { w1 with Count := wrap64 (w1.Count + 1) }
    let w3 : Waiting := if nano > w2.Max then { w2 with Max := nano } else w2
    let w4 : Waiting := if nano < w3.Min then { w3 with Min := nano } else w3
    { t with methods := mapStore t.methods method w4 }

/-- Go: `type MethodData struct { ... }`. -/
structure MethodData where
  Method : String
  DoCount : Int
  TimeNanoTotal : Int
  MaxTimeNano : Int
  MinTimeNano : Int
  AvgTimeNano : Int
  deriving DecidableEq, Repr

/-- The `for k, v := range t.methods` loop of `GetMethodData`, appending to
`data`; `none` is the run-time panic "integer divide by zero". -/
def getMethodDataLoop : Methods → List MethodData → Option (List MethodData)
  | [], data => some data
  | (k, v) :: rest, data =>
    match goDiv64 v.Total v.Count with
    | none => none
    | some avg =>
      getMethodDataLoop rest (data ++ [{
        Method := k,
        DoCount := v.Count,
        TimeNanoTotal := v.Total,
        MaxTimeNano := v.Max,
        MinTimeNano := v.Min,
        AvgTimeNano := avg }])

/-- Go: `func (t *Timing) GetMethodData() []*MethodData`; the aggregator is not
modified. `none` is the panic of the division. -/
def Timing.GetMethodData (t : Timing) : Option (List MethodData) :=
  getMethodDataLoop t.methods []

/-- Go: `func (t *Timing) SetEnable(enable bool)`. -/
def Timing.SetEnable (t : Timing) (enable : Bool) : Timing :=
  { t with Enable := enable }

/-- Go: `func (t *Timing) Clear()`. -/
def Timing.Clear (t : Timing) : Timing :=
  { t with methods := [] }

/-! ## Work, clock and `Do` -/

/-- How a call ends. -/
inductive Outcome where
  | returned
  | panicked (reason : String)
  deriving DecidableEq, Repr

/-- Everything a unit of work can read and change: the aggregator, the number
of clock readings taken so far, and the rest of the program state. -/
structure World (σ : Type) where
  timing : Timing
  ticks : Nat
  ext : σ

/-- A non-nil Go `func()`. -/
abbrev Work (σ : Type) := World σ → Outcome × World σ

/-- Go: `f()` for `f` of type `func()`; calling a nil function panics. -/
def callFunc {σ : Type} (f : Option (Work σ)) (w : World σ) : Outcome × World σ :=
  match f with
  | none => (Outcome.panicked "invalid memory address or nil pointer dereference", w)
  | some g => g w

/-- Go standard library, `time.Time.Sub` on two monotonic readings
(`time.subMono`), followed by `Nanoseconds()`: the difference, saturated to the
`int64` range. -/
def timeSub (t u : Int) : Int :=
  let d := wrap64 (t - u)
  if d < 0 ∧ t > u then maxInt64
  else if d > 0 ∧ t < u then minInt64
  else d

/-- Go: `func (t *Timing) Do(method string, f func())`, the receiver being the
aggregator of the world. -/
def Timing.Do {σ : Type} (clock : Nat → Int) (method : String) (f : Option (Work σ))
    (w : World σ) : Outcome × World σ :=
  if !w.timing.enable then
    callFunc f w
  else
    let start := clock w.ticks
    let w1 : World σ := { w with ticks := w.ticks + 1 }
    match callFunc f w1 with
    | (Outcome.panicked r, w2) => (Outcome.panicked r, w2)
    | (Outcome.returned, w2) =>
      let now := clock w2.ticks
      let w3 : World σ := { w2 with ticks := w2.ticks + 1 }
      (Outcome.returned, { w3 with timing := w3.timing.waiting method (timeSub now start) })

/-! ## Call sequences -/

/-- One call on the aggregator. -/
inductive Op where
  | waiting (method : String) (nano : Int)
  | setEnable (enable : Bool)
  | clear
  | getMethodData
  deriving DecidableEq, Repr

/-- The aggregator after one call. -/
def Op.apply (o : Op) (t : Timing) : Timing :=
  match o with
  | Op.waiting method nano => t.waiting method nano
  | Op.setEnable enable => t.SetEnable enable
  | Op.clear => t.Clear
  | Op.getMethodData => t

/-- The aggregator after a sequence of calls, left to right. -/
def runOps : List Op → Timing → Timing
  | [], t => t
  | o :: rest, t => runOps rest (o.apply t)

/-- Folding the samples in order under one name. -/
def foldSamples (method : String) : List Int → Timing → Timing
  | [], t => t
  | s :: rest, t => foldSamples method rest (t.waiting method s)

/-- The sample of a `waiting` call is an `int64`, as the parameter type demands. -/
def Op.typed (o : Op) : Prop :=
  match o with
  | Op.waiting _ nano => isInt64 nano
  | _ => True

/-- The statement `w.Total += nano` of this call does not leave the `int64` range. -/
def Op.totalFits (o : Op) (t : Timing) : Prop :=
  match o with
  | Op.waiting method nano =>
    match mapLookup t.methods method with
    | some w => isInt64 (w.Total + nano)
    | none => True
  | _ => True

/-- The statement `w.Count++` of this call does not leave the `int64` range. -/
def Op.countFits (o : Op) (t : Timing) : Prop :=
  match o with
  | Op.waiting method _ =>
    match mapLookup t.methods method with
    | some w => isInt64 (w.Count + 1)
    | none => True
  | _ => True

/-- No `Total += nano` of the call sequence, started in `t`, overflows. -/
def noTotalOverflow : List Op → Timing → Prop
  | [], _ => True
  | o :: rest, t => o.totalFits t ∧ noTotalOverflow rest (o.apply t)

/-- No `Count++` of the call sequence, started in `t`, overflows. -/
def noCountOverflow : List Op → Timing → Prop
  | [], _ => True
  | o :: rest, t => o.countFits t ∧ noCountOverflow rest (o.apply t)

/-- The largest element of `s :: rest`, computed as the code does: keep the
running maximum, replace it when the new sample is larger. -/
def runningMax : Int → List Int → Int
  | m, [] => m
  | m, s :: rest => runningMax (if s > m then s else m) rest

/-- The smallest element of `s :: rest`, computed as the code does. -/
def runningMin : Int → List Int → Int
  | m, [] => m
  | m, s :: rest => runningMin (if s < m then s else m) rest

instance (m : Methods) : Decidable (MapWF m) := by
  unfold MapWF
  exact inferInstance

/-- The record that the loop body of `GetMethodData` builds for the entry
`k ↦ v` when the division does not panic. -/
def methodDataOf (k : String) (v : Waiting) : MethodData :=
  { Method := k,
    DoCount := v.Count,
    TimeNanoTotal := v.Total,
    MaxTimeNano := v.Max,
    MinTimeNano := v.Min,
    AvgTimeNano := wrap64 (Int.tdiv v.Total v.Count) }

/-- A state with two entries, used to instantiate the theorems. -/
def sampleTiming : Timing :=
  { Enable := true,
    methods := [("fetch", { Count := 2, Total := 7, Max := 4, Min := 3 }),
                ("store", { Count := 3, Total := -7, Max := -2, Min := -3 })] }

/-- The sample of a `waiting` call is not negative (a duration). -/
def Op.nonneg (o : Op) : Prop :=
  match o with
  | Op.waiting _ nano => 0 ≤ nano
  | _ => True

/-- Invariant of an entry along overflow-free call sequences: at least one
sample, the total lies between `Count` times the extrema, and the extrema are
`int64` values. -/
def statsInv (w : Waiting) : Prop :=
  1 ≤ w.Count ∧ w.Count * w.Min ≤ w.Total ∧ w.Total ≤ w.Count * w.Max ∧
    isInt64 w.Min ∧ isInt64 w.Max

/-- A work that bumps a counter of the program state and returns; it does not
touch the aggregator. -/
def countingWork : Work Nat :=
  fun w => (Outcome.returned, { w with ext := w.ext + 1 })

/-- A work that panics without touching the aggregator. -/
def failingWork : Work Nat :=
  fun w => (Outcome.panicked "boom", w)

/-- A clock whose successive readings are 100 ns apart. -/
def steadyClock : Nat → Int :=
  fun i => 100 * i

/-- An enabled aggregator whose entry for "m" has the largest `int64` as `Count`. -/
def fullCountTiming : Timing :=
  { Enable := true,
    methods := [("m", { Count := 9223372036854775807, Total := 0, Max := 0, Min := 0 })] }

/-- A reading of Go's monotonic clock: nanoseconds since process start, a
non-negative `int64`. -/
def isMonoReading (x : Int) : Prop := 0 ≤ x ∧ x ≤ maxInt64

instance (x : Int) : Decidable (isMonoReading x) := by
  unfold isMonoReading
  exact inferInstance

/-- An aggregator whose single entry has `Count = 0`. -/
def zeroCountTiming : Timing :=
  { Enable := true,
    methods := [("m", { Count := 0, Total := 0, Max := 0, Min := 0 })] }

/-! ## Stopwatch

A `time.Time` that carries no monotonic reading is an instant on the wall
clock: an integer number of nanoseconds since the zero `time.Time`
(January 1, year 1, 00:00:00 UTC). `time.Now().Local()` is such a value:
`Local` strips the monotonic reading. Each function below receives the wall
clock reading `now` of the moment it is called. -/

/-- The zero value of `time.Time`. -/
def zeroTime : Int := 0

/-- Go: `type Timer struct { start time.Time }`. -/
structure Timer where
  start : Int
  deriving DecidableEq, Repr

/-- Go: `func NewTimer() *Timer`, called at instant `now`: it returns
`&Timer{}` and does not read the clock. -/
def NewTimer (_now : Int) : Timer :=
  { start := zeroTime }

/-- Go: `func (timer *Timer) Reset()`, called at instant `now`. -/
def Timer.Reset (timer : Timer) (now : Int) : Timer :=
  { timer with start := now }

/-- Go standard library, `time.Time.Sub` on two instants without monotonic
reading, followed by `Nanoseconds()`: the difference, saturated to the `int64`
range. -/
def wallSub (t u : Int) : Int :=
  if t - u > maxInt64 then maxInt64
  else if t - u < minInt64 then minInt64
  else t - u

/-- Go: `func (timer *Timer) Duration() int64`, called at instant `now`; the
second component is the timer after the call. The quotient by the constant
1000 neither panics nor leaves the `int64` range. -/
def Timer.Duration (timer : Timer) (now : Int) : Int × Timer :=
  let nanos := wallSub now timer.start
  let micros := Int.tdiv nanos 1000
  (micros, timer)

/-- A monotonic clock whose third and later readings are the largest `int64`. -/
def lateClock : Nat → Int :=
  fun i => if i < 2 then 0 else 9223372036854775807

/-- A work that calls `SetEnable(false)` on the aggregator and returns. -/
def disablingWork : Work Nat :=
  fun w => (Outcome.returned, { w with timing := w.timing.SetEnable false })

/-- A work that calls `SetEnable(true)` on the aggregator and returns. -/
def enablingWork : Work Nat :=
  fun w => (Outcome.returned, { w with timing := w.timing.SetEnable true })

/-! ## Package-level functions

The default aggregator `std` is the aggregator of the world. -/

/-- Go: `var std = NewTiming(true)`, the initial value of the default aggregator. -/
def std : Timing := NewTiming true

/-- Go: package-level `func Do(method string, f func())`. -/
def Do {σ : Type} (clock : Nat → Int) (method : String) (f : Option (Work σ))
    (w : World σ) : Outcome × World σ :=
  if method = "" ∨ f.isNone = true then
    (Outcome.returned, w)
  else
    Timing.Do clock method f w

/-! ## Folds as a function of the previous entry -/

/-- The entry that `waiting` stores under its name, given what the lookup of
that name found before the call. -/
def foldEntry (prev : Option Waiting) (nano : Int) : Waiting :=
  match prev with
  | none => { Count := 1, Total := nano, Max := nano, Min := nano }
  | some w =>
    { Count := wrap64 (w.Count + 1),
      Total := wrap64 (w.Total + nano),
      Max := if nano > w.Max then nano else w.Max,
      Min := if nano < w.Min then nano else w.Min }

/-- A sequence of `waiting(name, sample)` calls, left to right. -/
def applyFolds : List (String × Int) → Timing → Timing
  | [], t => t
  | (name, nano) :: rest, t => applyFolds rest (t.waiting name nano)

/-- Two aggregator states hold the same flag and, under every name, the same
entry (or none): they are the same Go state up to the iteration order of the
map. -/
def sameStats (t1 t2 : Timing) : Prop :=
  t1.Enable = t2.Enable ∧ ∀ name : String, mapLookup t1.methods name = mapLookup t2.methods name

/-! ## `Do` with the mutex

The same `Do` and `waiting`, with `t.mutex` made explicit for the question
whether a call returns. `sync.Mutex` is not re-entrant: in a sequential run a
`Lock()` on a held mutex never returns. -/

/-- How a call ends when the mutex is modelled: `blocked` is a `t.mutex.Lock()`
that never returns. -/
inductive LockOutcome where
  | returned
  | panicked (reason : String)
  | blocked
  deriving DecidableEq, Repr

/-- The state with the mutex: `locked` tells whether `t.mutex` is held. -/
structure LockWorld (σ : Type) where
  timing : Timing
  locked : Bool
  ticks : Nat
  ext : σ

/-- A non-nil Go `func()` on the state with the mutex. -/
abbrev LockWork (σ : Type) := LockWorld σ → LockOutcome × LockWorld σ

/-- Go: `func (t *Timing) waiting(method string, nano int64)` with its
`t.mutex.Lock()` and deferred `t.mutex.Unlock()`. -/
def Timing.waitingLock {σ : Type} (method : String) (nano : Int) (w : LockWorld σ) :
    LockOutcome × LockWorld σ :=
  if w.locked then
    (LockOutcome.blocked, w)
  else
    let w1 : LockWorld σ := { w with locked := true }
    let w2 : LockWorld σ := { w1 with timing := w1.timing.waiting method nano }
    (LockOutcome.returned, { w2 with locked := false })

/-- Go: `func (t *Timing) Do(method string, f func())` on the state with the
mutex: no lock is taken around `f()`. -/
def Timing.DoLock {σ : Type} (clock : Nat → Int) (method : String) (f : LockWork σ)
    (w : LockWorld σ) : LockOutcome × LockWorld σ :=
  if !w.timing.enable then
    f w
  else
    let start := clock w.ticks
    let w1 : LockWorld σ := { w with ticks := w.ticks + 1 }
    match f w1 with
    | (LockOutcome.returned, w2) =>
      let now := clock w2.ticks
      let w3 : LockWorld σ := { w2 with ticks := w2.ticks + 1 }
      Timing.waitingLock method (timeSub now start) w3
    | (oc, w2) => (oc, w2)

/-- A work on the state with the mutex that bumps a counter and returns; it
touches neither the aggregator nor its mutex. -/
def countingLockWork : LockWork Nat :=
  fun w => (LockOutcome.returned, { w with ext := w.ext + 1 })

/-! ## Sanity checks on the example scenario of the specification -/

example : mapLookup (foldSamples "fetch" [100, 200, 300] (NewTiming true)).methods "fetch"
    = some { Count := 3, Total := 600, Max := 300, Min := 100 } := by decide

example : (foldSamples "fetch" [100, 200, 300] (NewTiming true)).GetMethodData
    = some [{ Method := "fetch", DoCount := 3, TimeNanoTotal := 600, MaxTimeNano := 300,
              MinTimeNano := 100, AvgTimeNano := 200 }] := by decide

/-! ## int64 lemmas -/

theorem wrap64_of_isInt64 {x : Int} (h : isInt64 x) : wrap64 x = x := by
  unfold isInt64 minInt64 maxInt64 at h
  unfold wrap64
  omega

theorem wrap64_wrap64_add (a b : Int) : wrap64 (wrap64 a + b) = wrap64 (a + b) := by
  unfold wrap64
  omega

theorem isInt64_wrap64 (x : Int) : isInt64 (wrap64 x) := by
  unfold isInt64 minInt64 maxInt64 wrap64
  omega

/-! ## Map lemmas -/

theorem mapLookup_mapStore_same (m : Methods) (k : String) (v : Waiting) :
    mapLookup (mapStore m k v) k = some v := by
  induction m with
  | nil => simp [mapStore, mapLookup]
  | cons hd tl ih =>
    obtain ⟨k1, w1⟩ := hd
    by_cases h : k1 = k
    · simp [mapStore, mapLookup, h]
    · simp [mapStore, mapLookup, h, ih]

theorem mapLookup_mapStore_other (m : Methods) (k k2 : String) (v : Waiting) (hne : k2 ≠ k) :
    mapLookup (mapStore m k v) k2 = mapLookup m k2 := by
  induction m with
  | nil =>
    have h : ¬ k = k2 := fun h => hne h.symm
    simp [mapStore, mapLookup, h]
  | cons hd tl ih =>
    obtain ⟨k1, w1⟩ := hd
    by_cases h : k1 = k
    · subst h
      have h2 : ¬ k1 = k2 := fun h => hne h.symm
      simp [mapStore, mapLookup, h2]
    · by_cases h3 : k1 = k2
      · subst h3
        simp [mapStore, mapLookup, h]
      · simp [mapStore, mapLookup, h, h3, ih]

/-! ## The fold, one name -/

theorem waiting_lookup_absent (t : Timing) (method : String) (nano : Int)
    (h : mapLookup t.methods method = none) :
    mapLookup (t.waiting method nano).methods method
      = some { Count := 1, Total := nano, Max := nano, Min := nano } := by
  simp [Timing.waiting, h, mapLookup_mapStore_same]

theorem waiting_lookup_present (t : Timing) (method : String) (nano : Int) (w : Waiting)
    (h : mapLookup t.methods method = some w) :
    mapLookup (t.waiting method nano).methods method
      = some { Count := wrap64 (w.Count + 1), Total := wrap64 (w.Total + nano),
               Max := if nano > w.Max then nano else w.Max,
               Min := if nano < w.Min then nano else w.Min } := by
  simp only [Timing.waiting, h, mapLookup_mapStore_same]
  by_cases h1 : nano > w.Max <;> by_cases h2 : nano < w.Min <;> simp [h1, h2]

theorem foldSamples_present (method : String) (rest : List Int) :
    ∀ (s : Int) (t : Timing) (w : Waiting), mapLookup t.methods method = some w →
      mapLookup (foldSamples method (s :: rest) t).methods method
        = some { Count := wrap64 (w.Count + (s :: rest).length),
                 Total := wrap64 (w.Total + (s :: rest).sum),
                 Max := runningMax w.Max (s :: rest),
                 Min := runningMin w.Min (s :: rest) } := by
  induction rest with
  | nil =>
    intro s t w h
    simp [foldSamples, waiting_lookup_present t method s w h, runningMax, runningMin]
  | cons s2 rest ih =>
    intro s t w h
    have h1 := waiting_lookup_present t method s w h
    have h2 := ih s2 (t.waiting method s) _ h1
    rw [foldSamples, h2]
    simp only [runningMax, runningMin, List.length_cons, List.sum_cons, wrap64_wrap64_add]
    congr 2
    · congr 1
      push_cast
      ring
    · congr 1
      ring

theorem runningMax_spec (rest : List Int) :
    ∀ m : Int, runningMax m rest ∈ m :: rest ∧ ∀ x ∈ m :: rest, x ≤ runningMax m rest := by
  induction rest with
  | nil =>
    intro m
    simp [runningMax]
  | cons s rest ih =>
    intro m
    obtain ⟨hmem, hle⟩ := ih (if s > m then s else m)
    have h0 := hle (if s > m then s else m) (List.mem_cons_self _ _)
    have hM : m ≤ (if s > m then s else m) ∧ s ≤ (if s > m then s else m) := by
      by_cases hs : s > m
      · simp only [hs, if_true]
        omega
      · simp only [hs, if_false]
        omega
    simp only [runningMax]
    constructor
    · rcases List.mem_cons.mp hmem with h | h
      · rw [h]
        by_cases hs : s > m <;> simp [hs]
      · exact List.mem_cons_of_mem _ (List.mem_cons_of_mem _ h)
    · intro x hx
      rcases List.mem_cons.mp hx with h | h
      · rw [h]
        exact le_trans hM.1 h0
      · rcases List.mem_cons.mp h with h | h
        · rw [h]
          exact le_trans hM.2 h0
        · exact hle x (List.mem_cons_of_mem _ h)

theorem runningMin_spec (rest : List Int) :
    ∀ m : Int, runningMin m rest ∈ m :: rest ∧ ∀ x ∈ m :: rest, runningMin m rest ≤ x := by
  induction rest with
  | nil =>
    intro m
    simp [runningMin]
  | cons s rest ih =>
    intro m
    obtain ⟨hmem, hle⟩ := ih (if s < m then s else m)
    have h0 := hle (if s < m then s else m) (List.mem_cons_self _ _)
    have hM : (if s < m then s else m) ≤ m ∧ (if s < m then s else m) ≤ s := by
      by_cases hs : s < m
      · simp only [hs, if_true]
        omega
      · simp only [hs, if_false]
        omega
    simp only [runningMin]
    constructor
    · rcases List.mem_cons.mp hmem with h | h
      · rw [h]
        by_cases hs : s < m <;> simp [hs]
      · exact List.mem_cons_of_mem _ (List.mem_cons_of_mem _ h)
    · intro x hx
      rcases List.mem_cons.mp hx with h | h
      · rw [h]
        exact le_trans h0 hM.1
      · rcases List.mem_cons.mp h with h | h
        · rw [h]
          exact le_trans h0 hM.2
        · exact hle x (List.mem_cons_of_mem _ h)

/-- Closed form of the entry after folding a non-empty sequence under a name
that had no entry: `Count` and `Total` are the length and the sum modulo
`2^64`, `Max` and `Min` the running extrema started at the first sample. -/
theorem foldSamples_absent (method : String) (s : Int) (rest : List Int) (t : Timing)
    (hs : isInt64 s) (habs : mapLookup t.methods method = none) :
    mapLookup (foldSamples method (s :: rest) t).methods method
      = some { Count := wrap64 ((s :: rest).length),
               Total := wrap64 ((s :: rest).sum),
               Max := runningMax s rest,
               Min := runningMin s rest } := by
  have h1 := waiting_lookup_absent t method s habs
  cases rest with
  | nil =>
    have hone : wrap64 (([s] : List Int).length) = 1 := by
      show wrap64 ((1 : Nat) : Int) = 1
      decide
    have hsum : wrap64 ([s] : List Int).sum = s := by
      rw [List.sum_singleton]
      exact wrap64_of_isInt64 hs
    rw [hone, hsum]
    exact h1
  | cons s2 rest =>
    have h2 := foldSamples_present method rest s2 (t.waiting method s) _ h1
    have hc : (1 : Int) + ((s2 :: rest).length : Nat) = ((s :: s2 :: rest).length : Nat) := by
      simp only [List.length_cons]
      push_cast
      ring
    have ht : s + (s2 :: rest).sum = (s :: s2 :: rest).sum := by
      simp only [List.sum_cons]
    rw [foldSamples, h2]
    dsimp only
    rw [hc, ht]

theorem runningMax_replicate (s : Int) (n : Nat) : runningMax s (List.replicate n s) = s := by
  induction n with
  | zero => rfl
  | succ n ih =>
    rw [List.replicate_succ, runningMax]
    simpa using ih

theorem runningMin_replicate (s : Int) (n : Nat) : runningMin s (List.replicate n s) = s := by
  induction n with
  | zero => rfl
  | succ n ih =>
    rw [List.replicate_succ, runningMin]
    simpa using ih

/-- Folding `n > 0` copies of one sample under a fresh name. -/
theorem foldSamples_replicate (method : String) (s : Int) (n : Nat) (t : Timing)
    (hn : 0 < n) (hs : isInt64 s) (habs : mapLookup t.methods method = none) :
    mapLookup (foldSamples method (List.replicate n s) t).methods method
      = some { Count := wrap64 n, Total := wrap64 (n * s), Max := s, Min := s } := by
  obtain ⟨k, rfl⟩ : ∃ k, n = k + 1 := ⟨n - 1, by omega⟩
  have h := foldSamples_absent method s (List.replicate k s) t hs habs
  rw [runningMax_replicate, runningMin_replicate, ← List.replicate_succ] at h
  rw [h, List.length_replicate, List.sum_replicate]
  simp only [nsmul_eq_mul]

/-- C1 (amended). For every method name and every non-empty sequence of int64
samples of length at most `2^63 - 1` whose sum fits int64, folding the samples
in order with `waiting` into an aggregator without an entry for that name
leaves the entry with `Count` = the number of samples, `Total` = their sum,
`Max` = the largest and `Min` = the smallest sample. -/
theorem waiting_fold_correct (method : String) (samples : List Int) (t : Timing)
    (hne : samples ≠ [])
    (hint : ∀ x ∈ samples, isInt64 x)
    (hlen : (samples.length : Int) ≤ maxInt64)
    (hsum : isInt64 samples.sum)
    (habs : mapLookup t.methods method = none) :
    ∃ w, mapLookup (foldSamples method samples t).methods method = some w ∧
      w.Count = samples.length ∧ w.Total = samples.sum ∧
      (w.Max ∈ samples ∧ ∀ x ∈ samples, x ≤ w.Max) ∧
      (w.Min ∈ samples ∧ ∀ x ∈ samples, w.Min ≤ x) := by
  cases samples with
  | nil => exact absurd rfl hne
  | cons s rest =>
    have hlen2 : isInt64 ((s :: rest).length : Int) := by
      unfold isInt64 minInt64
      constructor
      · have : (0 : Int) ≤ ((s :: rest).length : Int) := Int.ofNat_nonneg _
        omega
      · exact hlen
    refine ⟨_, foldSamples_absent method s rest t (hint s (List.mem_cons_self _ _)) habs,
      wrap64_of_isInt64 hlen2, wrap64_of_isInt64 hsum, runningMax_spec rest s,
      runningMin_spec rest s⟩

/-- Witness of C1: the example scenario of the specification, samples 100, 200, 300
recorded under "fetch". -/
theorem waiting_fold_correct_witness :
    ∃ w, mapLookup (foldSamples "fetch" [100, 200, 300] (NewTiming true)).methods "fetch" = some w ∧
      w.Count = ([100, 200, 300] : List Int).length ∧
      w.Total = ([100, 200, 300] : List Int).sum ∧
      (w.Max ∈ ([100, 200, 300] : List Int) ∧ ∀ x ∈ ([100, 200, 300] : List Int), x ≤ w.Max) ∧
      (w.Min ∈ ([100, 200, 300] : List Int) ∧ ∀ x ∈ ([100, 200, 300] : List Int), w.Min ≤ x) :=
  waiting_fold_correct "fetch" [100, 200, 300] (NewTiming true) (by decide) (by decide)
    (by decide) (by decide) (by decide)

/-- Counterexample to C1 as stated: `2^63` samples, all `0` (their sum, `0`,
does not overflow), folded under a fresh name leave `Count = -2^63`, not
`2^63`: the statement `w.Count++` wraps around. -/
theorem waiting_fold_count_wraps :
    (List.replicate 9223372036854775808 (0 : Int)).length = 9223372036854775808 ∧
    (∀ x ∈ List.replicate 9223372036854775808 (0 : Int), isInt64 x) ∧
    isInt64 (List.replicate 9223372036854775808 (0 : Int)).sum ∧
    mapLookup (NewTiming true).methods "m" = none ∧
    mapLookup (foldSamples "m" (List.replicate 9223372036854775808 0) (NewTiming true)).methods "m"
      = some { Count := -9223372036854775808, Total := 0, Max := 0, Min := 0 } := by
  have hz : isInt64 0 := by decide
  refine ⟨List.length_replicate _ _, ?_, ?_, rfl, ?_⟩
  · intro x hx
    rw [List.eq_of_mem_replicate hx]
    exact hz
  · rw [List.sum_replicate, smul_zero]
    exact hz
  · rw [foldSamples_replicate "m" 0 9223372036854775808 (NewTiming true) (by decide) hz rfl]
    have h1 : wrap64 ((9223372036854775808 : Nat) : Int) = -9223372036854775808 := by decide
    have h2 : wrap64 (((9223372036854775808 : Nat) : Int) * 0) = 0 := by decide
    rw [h1, h2]

/-! ## `GetMethodData` -/

theorem goDiv64_of_ne_zero {a b : Int} (hb : b ≠ 0) :
    goDiv64 a b = some (wrap64 (Int.tdiv a b)) := by
  simp [goDiv64, hb]

/-- Outside `minInt64 / -1` the truncated quotient of an `int64` by a non-zero
integer is an `int64`. -/
theorem isInt64_tdiv {a b : Int} (ha : isInt64 a) (hb : b ≠ 0)
    (hcorner : ¬ (a = minInt64 ∧ b = -1)) : isInt64 (Int.tdiv a b) := by
  have hq := Int.natAbs_tdiv a b
  have hle : (Int.tdiv a b).natAbs ≤ a.natAbs := by
    rw [hq]
    exact Nat.div_le_self _ _
  unfold isInt64 minInt64 maxInt64 at *
  constructor
  · omega
  · by_contra hgt
    have h1 : a.natAbs = 9223372036854775808 := by omega
    have h2 : (Int.tdiv a b).natAbs = 9223372036854775808 := by omega
    have hb1 : b.natAbs = 1 := by
      have hpos : 0 < b.natAbs := Int.natAbs_pos.mpr hb
      rw [hq, h1] at h2
      by_contra hne
      have h2le : 2 ≤ b.natAbs := by omega
      have : (9223372036854775808 : Nat).div b.natAbs ≤ 9223372036854775808 / 2 :=
        Nat.div_le_div_left h2le (by decide)
      omega
    have ha2 : a = -9223372036854775808 := by omega
    rcases Int.natAbs_eq b with hb2 | hb2
    · rw [hb1] at hb2
      have : b = 1 := by simpa using hb2
      subst this
      rw [Int.tdiv_one] at hgt
      omega
    · rw [hb1] at hb2
      have : b = -1 := by simpa using hb2
      exact hcorner ⟨ha2, this⟩

theorem getMethodDataLoop_eq (m : Methods) :
    ∀ acc : List MethodData, (∀ kw ∈ m, kw.2.Count ≠ 0) →
      getMethodDataLoop m acc = some (acc ++ m.map (fun kw => methodDataOf kw.1 kw.2)) := by
  induction m with
  | nil =>
    intro acc _
    simp [getMethodDataLoop]
  | cons hd tl ih =>
    intro acc h
    obtain ⟨k, v⟩ := hd
    have hv : v.Count ≠ 0 := h (k, v) (List.mem_cons_self _ _)
    have htl : ∀ kw ∈ tl, kw.2.Count ≠ 0 := fun kw hkw => h kw (List.mem_cons_of_mem _ hkw)
    rw [getMethodDataLoop, goDiv64_of_ne_zero hv]
    simp only
    rw [ih _ htl]
    simp [methodDataOf]

theorem mapLookup_of_mem (m : Methods) (hwf : MapWF m) (k : String) (v : Waiting)
    (hmem : (k, v) ∈ m) : mapLookup m k = some v := by
  induction m with
  | nil => simp at hmem
  | cons hd tl ih =>
    obtain ⟨k1, w1⟩ := hd
    unfold MapWF mapKeys at hwf
    rw [List.map_cons, List.nodup_cons] at hwf
    rcases List.mem_cons.mp hmem with h | h
    · cases h
      simp [mapLookup]
    · have hne : k1 ≠ k := by
        intro heq
        apply hwf.1
        rw [heq]
        exact List.mem_map.mpr ⟨(k, v), h, rfl⟩
      simp only [mapLookup, hne, if_false]
      exact ih hwf.2 h

theorem mem_of_mapLookup (m : Methods) (k : String) (v : Waiting)
    (h : mapLookup m k = some v) : (k, v) ∈ m := by
  induction m with
  | nil => simp [mapLookup] at h
  | cons hd tl ih =>
    obtain ⟨k1, w1⟩ := hd
    by_cases hk : k1 = k
    · simp only [mapLookup, hk, if_true, Option.some.injEq] at h
      rw [hk, h]
      exact List.mem_cons_self _ _
    · simp only [mapLookup, hk, if_false] at h
      exact List.mem_cons_of_mem _ (ih h)

/-- C2. In every aggregator state (a Go map: keys pairwise distinct) whose
entries all have `Count != 0`, `GetMethodData` returns, and every returned
record carries the `Count`, `Total`, `Max` and `Min` of the map entry stored
under its `Method`, with `AvgTimeNano` the Go quotient `Total / Count`: the
integer quotient truncated toward zero (`Int.tdiv`), which Go wraps only in the
corner `minInt64 / -1`. -/
theorem getMethodData_entries (t : Timing) (hwf : MapWF t.methods)
    (hcount : ∀ kw ∈ t.methods, kw.2.Count ≠ 0) :
    ∃ data, t.GetMethodData = some data ∧
      ∀ d ∈ data, ∃ w, mapLookup t.methods d.Method = some w ∧
        d.DoCount = w.Count ∧ d.TimeNanoTotal = w.Total ∧
        d.MaxTimeNano = w.Max ∧ d.MinTimeNano = w.Min ∧
        goDiv64 w.Total w.Count = some d.AvgTimeNano ∧
        (isInt64 w.Total → ¬ (w.Total = minInt64 ∧ w.Count = -1) →
          d.AvgTimeNano = Int.tdiv w.Total w.Count) := by
  refine ⟨[] ++ t.methods.map (fun kw => methodDataOf kw.1 kw.2), ?_, ?_⟩
  · unfold Timing.GetMethodData
    exact getMethodDataLoop_eq t.methods [] hcount
  · intro d hd
    rw [List.nil_append, List.mem_map] at hd
    obtain ⟨⟨k, v⟩, hmem, rfl⟩ := hd
    have hv : v.Count ≠ 0 := hcount (k, v) hmem
    refine ⟨v, mapLookup_of_mem t.methods hwf k v hmem, rfl, rfl, rfl, rfl, ?_, ?_⟩
    · rw [goDiv64_of_ne_zero hv]
      rfl
    · intro hT hcorner
      exact wrap64_of_isInt64 (isInt64_tdiv hT hv hcorner)

/-- Witness of C2 on a state with two entries. -/
theorem getMethodData_entries_witness :
    MapWF sampleTiming.methods ∧ (∀ kw ∈ sampleTiming.methods, kw.2.Count ≠ 0) ∧
    ∃ data, sampleTiming.GetMethodData = some data ∧
      ∀ d ∈ data, ∃ w, mapLookup sampleTiming.methods d.Method = some w ∧
        d.DoCount = w.Count ∧ d.TimeNanoTotal = w.Total ∧
        d.MaxTimeNano = w.Max ∧ d.MinTimeNano = w.Min ∧
        goDiv64 w.Total w.Count = some d.AvgTimeNano ∧
        (isInt64 w.Total → ¬ (w.Total = minInt64 ∧ w.Count = -1) →
          d.AvgTimeNano = Int.tdiv w.Total w.Count) :=
  ⟨by decide, by decide, getMethodData_entries sampleTiming (by decide) (by decide)⟩

/-! ## Invariants along call sequences -/

theorem mem_mapStore (m : Methods) (k : String) (v : Waiting) (x : String × Waiting)
    (hx : x ∈ mapStore m k v) : x = (k, v) ∨ x ∈ m := by
  induction m with
  | nil =>
    simp only [mapStore, List.mem_singleton] at hx
    exact Or.inl hx
  | cons hd tl ih =>
    obtain ⟨k1, w1⟩ := hd
    by_cases h : k1 = k
    · simp only [mapStore, h, if_true, List.mem_cons] at hx
      rcases hx with hx | hx
      · exact Or.inl hx
      · exact Or.inr (List.mem_cons_of_mem _ hx)
    · simp only [mapStore, h, if_false, List.mem_cons] at hx
      rcases hx with hx | hx
      · rw [hx]
        exact Or.inr (List.mem_cons_self _ _)
      · rcases ih hx with h2 | h2
        · exact Or.inl h2
        · exact Or.inr (List.mem_cons_of_mem _ h2)

/-- Every member of the map after `waiting` is the entry just written or an
entry that was there before. -/
theorem mem_waiting (t : Timing) (method : String) (nano : Int) (x : String × Waiting)
    (hx : x ∈ (t.waiting method nano).methods) :
    x ∈ t.methods ∨
      (x.1 = method ∧ mapLookup (t.waiting method nano).methods method = some x.2) := by
  unfold Timing.waiting at hx ⊢
  cases hlook : mapLookup t.methods method with
  | none =>
    simp only [hlook] at hx ⊢
    rcases mem_mapStore _ _ _ _ hx with h | h
    · right
      rw [h]
      exact ⟨rfl, mapLookup_mapStore_same _ _ _⟩
    · exact Or.inl h
  | some w =>
    simp only [hlook] at hx ⊢
    rcases mem_mapStore _ _ _ _ hx with h | h
    · right
      rw [h]
      exact ⟨rfl, mapLookup_mapStore_same _ _ _⟩
    · exact Or.inl h

/-- One call keeps "every `Count` is at least 1" when its `Count++` does not overflow. -/
theorem apply_count_pos (o : Op) (t : Timing) (hinv : ∀ kw ∈ t.methods, 1 ≤ kw.2.Count)
    (hfit : o.countFits t) : ∀ kw ∈ (o.apply t).methods, 1 ≤ kw.2.Count := by
  cases o with
  | waiting method nano =>
    intro kw hkw
    rcases mem_waiting t method nano kw hkw with h | ⟨_, h⟩
    · exact hinv kw h
    · cases hlook : mapLookup t.methods method with
      | none =>
        rw [waiting_lookup_absent t method nano hlook] at h
        rw [← Option.some.inj h]
      | some w =>
        rw [waiting_lookup_present t method nano w hlook] at h
        have hw : 1 ≤ w.Count := hinv (method, w) (mem_of_mapLookup _ _ _ hlook)
        have hf : isInt64 (w.Count + 1) := by
          simpa [Op.countFits, hlook] using hfit
        rw [← Option.some.inj h]
        show 1 ≤ wrap64 (w.Count + 1)
        rw [wrap64_of_isInt64 hf]
        omega
  | setEnable enable => exact hinv
  | clear =>
    intro kw hkw
    simp [Op.apply, Timing.Clear] at hkw
  | getMethodData => exact hinv

theorem runOps_count_pos (ops : List Op) :
    ∀ t : Timing, (∀ kw ∈ t.methods, 1 ≤ kw.2.Count) → noCountOverflow ops t →
      ∀ kw ∈ (runOps ops t).methods, 1 ≤ kw.2.Count := by
  induction ops with
  | nil =>
    intro t hinv _
    exact hinv
  | cons o rest ih =>
    intro t hinv hno
    exact ih (o.apply t) (apply_count_pos o t hinv hno.1) hno.2

/-- C3 (amended). In every state reached from `NewTiming(e)` by a finite
sequence of `waiting`, `SetEnable`, `Clear` and `GetMethodData` calls in which
no `Count++` overflows int64, every entry has `Count >= 1`; hence
`GetMethodData` returns (its division never divides by zero) and no returned
record has `DoCount = 0`. -/
theorem count_never_zero (e : Bool) (ops : List Op)
    (hno : noCountOverflow ops (NewTiming e)) :
    (∀ kw ∈ (runOps ops (NewTiming e)).methods, 1 ≤ kw.2.Count) ∧
    ∃ data, (runOps ops (NewTiming e)).GetMethodData = some data ∧
      ∀ d ∈ data, d.DoCount ≠ 0 := by
  have hinv : ∀ kw ∈ (runOps ops (NewTiming e)).methods, 1 ≤ kw.2.Count :=
    runOps_count_pos ops (NewTiming e) (by simp [NewTiming]) hno
  have hne : ∀ kw ∈ (runOps ops (NewTiming e)).methods, kw.2.Count ≠ 0 := by
    intro kw hkw
    have := hinv kw hkw
    omega
  refine ⟨hinv, _, getMethodDataLoop_eq _ [] hne, ?_⟩
  intro d hd
  rw [List.nil_append, List.mem_map] at hd
  obtain ⟨kw, hmem, rfl⟩ := hd
  exact hne kw hmem

theorem runOps_map_waiting (method : String) (samples : List Int) :
    ∀ t : Timing, runOps (samples.map (Op.waiting method)) t = foldSamples method samples t := by
  induction samples with
  | nil =>
    intro t
    rfl
  | cons s rest ih =>
    intro t
    simp only [List.map_cons, runOps, foldSamples, Op.apply]
    exact ih _

theorem runOps_replicate_waiting (method : String) (s : Int) (n : Nat) (t : Timing) :
    runOps (List.replicate n (Op.waiting method s)) t
      = foldSamples method (List.replicate n s) t := by
  rw [← runOps_map_waiting, List.map_replicate]

/-- Witness of C3 on a sequence that uses all four calls. -/
theorem count_never_zero_witness :
    noCountOverflow [Op.waiting "fetch" 100, Op.getMethodData, Op.setEnable false,
      Op.waiting "fetch" 200, Op.clear, Op.waiting "store" 5] (NewTiming true) ∧
    ((∀ kw ∈ (runOps [Op.waiting "fetch" 100, Op.getMethodData, Op.setEnable false,
        Op.waiting "fetch" 200, Op.clear, Op.waiting "store" 5] (NewTiming true)).methods,
        1 ≤ kw.2.Count) ∧
    ∃ data, (runOps [Op.waiting "fetch" 100, Op.getMethodData, Op.setEnable false,
        Op.waiting "fetch" 200, Op.clear, Op.waiting "store" 5] (NewTiming true)).GetMethodData
          = some data ∧ ∀ d ∈ data, d.DoCount ≠ 0) :=
  ⟨by simp [noCountOverflow, Op.countFits, Op.apply, Timing.waiting, Timing.SetEnable,
      Timing.Clear, mapLookup, mapStore, NewTiming]; decide,
   count_never_zero true _
    (by simp [noCountOverflow, Op.countFits, Op.apply, Timing.waiting, Timing.SetEnable,
      Timing.Clear, mapLookup, mapStore, NewTiming]; decide)⟩

theorem waiting_methods_single (t : Timing) (method : String) (nano : Int) (w : Waiting)
    (h : t.methods = [(method, w)]) :
    ∃ w2, (t.waiting method nano).methods = [(method, w2)] := by
  obtain ⟨v, hv⟩ : ∃ v, (t.waiting method nano).methods = mapStore t.methods method v := by
    unfold Timing.waiting
    cases mapLookup t.methods method with
    | none => exact ⟨_, rfl⟩
    | some w0 => exact ⟨_, rfl⟩
  refine ⟨v, ?_⟩
  rw [hv, h]
  simp only [mapStore, if_true]

theorem foldSamples_methods_single (method : String) (samples : List Int) :
    ∀ (t : Timing) (w : Waiting), t.methods = [(method, w)] →
      ∃ w2, (foldSamples method samples t).methods = [(method, w2)] := by
  induction samples with
  | nil =>
    intro t w h
    exact ⟨w, h⟩
  | cons s rest ih =>
    intro t w h
    obtain ⟨w1, h1⟩ := waiting_methods_single t method s w h
    exact ih _ w1 h1

/-- The whole map after folding `n > 0` copies of one sample into an empty aggregator. -/
theorem foldSamples_replicate_methods (method : String) (s : Int) (n : Nat) (t : Timing)
    (hn : 0 < n) (hs : isInt64 s) (hnil : t.methods = []) :
    (foldSamples method (List.replicate n s) t).methods
      = [(method, { Count := wrap64 n, Total := wrap64 (n * s), Max := s, Min := s })] := by
  have habs : mapLookup t.methods method = none := by
    rw [hnil]
    rfl
  have hlook := foldSamples_replicate method s n t hn hs habs
  obtain ⟨k, rfl⟩ : ∃ k, n = k + 1 := ⟨n - 1, by omega⟩
  have hfirst : (t.waiting method s).methods
      = [(method, { Count := 1, Total := s, Max := s, Min := s })] := by
    unfold Timing.waiting
    rw [habs, hnil]
    rfl
  obtain ⟨w2, h2⟩ := foldSamples_methods_single method (List.replicate k s) _ _ hfirst
  rw [List.replicate_succ, foldSamples] at hlook ⊢
  rw [h2] at hlook ⊢
  simp only [mapLookup, if_true, Option.some.injEq] at hlook
  rw [hlook]

/-- Counterexample to C3 as stated: `2^63` calls `waiting("m", 0)` after
`NewTiming(true)` leave the entry with `Count = -2^63`, and `2^64` such calls
leave it with `Count = 0`, where `GetMethodData` panics on the division. -/
theorem count_wraps_to_zero :
    (runOps (List.replicate 9223372036854775808 (Op.waiting "m" 0)) (NewTiming true)).methods
      = [("m", { Count := -9223372036854775808, Total := 0, Max := 0, Min := 0 })] ∧
    (runOps (List.replicate 18446744073709551616 (Op.waiting "m" 0)) (NewTiming true)).methods
      = [("m", { Count := 0, Total := 0, Max := 0, Min := 0 })] ∧
    (runOps (List.replicate 18446744073709551616 (Op.waiting "m" 0))
      (NewTiming true)).GetMethodData = none := by
  have hz : isInt64 0 := by decide
  have h1 : wrap64 ((9223372036854775808 : Nat) : Int) = -9223372036854775808 := by decide
  have h2 : wrap64 (((9223372036854775808 : Nat) : Int) * 0) = 0 := by decide
  have h3 : wrap64 ((18446744073709551616 : Nat) : Int) = 0 := by decide
  have h4 : wrap64 (((18446744073709551616 : Nat) : Int) * 0) = 0 := by decide
  have ha := foldSamples_replicate_methods "m" 0 9223372036854775808 (NewTiming true)
    (by decide) hz rfl
  have hb := foldSamples_replicate_methods "m" 0 18446744073709551616 (NewTiming true)
    (by decide) hz rfl
  rw [h1, h2] at ha
  rw [h3, h4] at hb
  refine ⟨?_, ?_, ?_⟩
  · rw [runOps_replicate_waiting]
    exact ha
  · rw [runOps_replicate_waiting]
    exact hb
  · unfold Timing.GetMethodData
    rw [runOps_replicate_waiting, hb]
    rfl

/-! ## The average lies between the extrema -/

/-- Truncated division of a total between `c * lo` and `c * hi` by `c ≥ 1`
lies between `lo` and `hi`. -/
theorem tdiv_between {total c lo hi : Int} (hc : 1 ≤ c) (hlo : c * lo ≤ total)
    (hhi : total ≤ c * hi) : lo ≤ Int.tdiv total c ∧ Int.tdiv total c ≤ hi := by
  have hcpos : 0 < c := by omega
  by_cases ht : 0 ≤ total
  · rw [Int.tdiv_eq_ediv ht (le_of_lt hcpos)]
    constructor
    · exact (Int.le_ediv_iff_mul_le hcpos).mpr (by rw [mul_comm]; exact hlo)
    · have h1 : total / c ≤ (c * hi) / c := Int.ediv_le_ediv hcpos hhi
      rwa [Int.mul_ediv_cancel_left _ (ne_of_gt hcpos)] at h1
  · have hneg : 0 ≤ -total := by omega
    have heq : Int.tdiv total c = -((-total) / c) := by
      have h1 := Int.neg_tdiv (-total) c
      rw [neg_neg] at h1
      rw [h1, Int.tdiv_eq_ediv hneg (le_of_lt hcpos)]
    rw [heq]
    constructor
    · have h1 : (-total) / c ≤ (c * (-lo)) / c :=
        Int.ediv_le_ediv hcpos (by rw [mul_neg]; omega)
      rw [Int.mul_ediv_cancel_left _ (ne_of_gt hcpos)] at h1
      omega
    · have h1 : -hi ≤ (-total) / c :=
        (Int.le_ediv_iff_mul_le hcpos).mpr (by rw [mul_comm, mul_neg]; omega)
      omega

theorem statsInv_first (nano : Int) (h : isInt64 nano) :
    statsInv { Count := 1, Total := nano, Max := nano, Min := nano } := by
  unfold statsInv
  simp only [one_mul]
  exact ⟨le_refl _, le_refl _, le_refl _, h, h⟩

theorem statsInv_next (w : Waiting) (nano : Int) (hw : statsInv w) (hn : isInt64 nano)
    (hc : isInt64 (w.Count + 1)) (ht : isInt64 (w.Total + nano)) :
    statsInv { Count := wrap64 (w.Count + 1), Total := wrap64 (w.Total + nano),
               Max := if nano > w.Max then nano else w.Max,
               Min := if nano < w.Min then nano else w.Min } := by
  obtain ⟨h1, h2, h3, h4, h5⟩ := hw
  unfold statsInv
  simp only
  rw [wrap64_of_isInt64 hc, wrap64_of_isInt64 ht]
  have hc0 : 0 ≤ w.Count := by omega
  refine ⟨by omega, ?_, ?_, ?_, ?_⟩
  · by_cases hlt : nano < w.Min
    · simp only [hlt, if_true]
      have : w.Count * nano ≤ w.Count * w.Min := mul_le_mul_of_nonneg_left (le_of_lt hlt) hc0
      rw [add_mul, one_mul]
      omega
    · simp only [hlt, if_false]
      rw [add_mul, one_mul]
      omega
  · by_cases hgt : nano > w.Max
    · simp only [hgt, if_true]
      have : w.Count * w.Max ≤ w.Count * nano := mul_le_mul_of_nonneg_left (le_of_lt hgt) hc0
      rw [add_mul, one_mul]
      omega
    · simp only [hgt, if_false]
      rw [add_mul, one_mul]
      omega
  · by_cases hlt : nano < w.Min
    · simp only [hlt, if_true]
      exact hn
    · simp only [hlt, if_false]
      exact h4
  · by_cases hgt : nano > w.Max
    · simp only [hgt, if_true]
      exact hn
    · simp only [hgt, if_false]
      exact h5

theorem apply_statsInv (o : Op) (t : Timing) (hinv : ∀ kw ∈ t.methods, statsInv kw.2)
    (hty : o.typed) (hcf : o.countFits t) (htf : o.totalFits t) :
    ∀ kw ∈ (o.apply t).methods, statsInv kw.2 := by
  cases o with
  | waiting method nano =>
    intro kw hkw
    rcases mem_waiting t method nano kw hkw with h | ⟨_, h⟩
    · exact hinv kw h
    · cases hlook : mapLookup t.methods method with
      | none =>
        rw [waiting_lookup_absent t method nano hlook] at h
        rw [← Option.some.inj h]
        exact statsInv_first nano hty
      | some w =>
        rw [waiting_lookup_present t method nano w hlook] at h
        rw [← Option.some.inj h]
        have hw : statsInv w := hinv (method, w) (mem_of_mapLookup _ _ _ hlook)
        have hc : isInt64 (w.Count + 1) := by
          simpa [Op.countFits, hlook] using hcf
        have ht : isInt64 (w.Total + nano) := by
          simpa [Op.totalFits, hlook] using htf
        exact statsInv_next w nano hw hty hc ht
  | setEnable enable => exact hinv
  | clear =>
    intro kw hkw
    simp [Op.apply, Timing.Clear] at hkw
  | getMethodData => exact hinv

theorem runOps_statsInv (ops : List Op) :
    ∀ t : Timing, (∀ kw ∈ t.methods, statsInv kw.2) → (∀ o ∈ ops, o.typed) →
      noCountOverflow ops t → noTotalOverflow ops t →
      ∀ kw ∈ (runOps ops t).methods, statsInv kw.2 := by
  induction ops with
  | nil =>
    intro t hinv _ _ _
    exact hinv
  | cons o rest ih =>
    intro t hinv hty hc ht
    exact ih (o.apply t)
      (apply_statsInv o t hinv (hty o (List.mem_cons_self _ _)) hc.1 ht.1)
      (fun o2 ho2 => hty o2 (List.mem_cons_of_mem _ ho2)) hc.2 ht.2

/-- C4 (amended). In every state reached from `NewTiming(e)` by a sequence of
`waiting(name, sample)` and `Clear` calls (also `SetEnable` and `GetMethodData`
calls) with int64 samples of either sign, in which no `Total` and no `Count`
overflowed int64, every entry satisfies `Min <= Total / Count <= Max`, the
quotient being Go's, truncated toward zero. -/
theorem average_between_min_max (e : Bool) (ops : List Op)
    (htyped : ∀ o ∈ ops, o.typed)
    (hcount : noCountOverflow ops (NewTiming e))
    (htotal : noTotalOverflow ops (NewTiming e)) :
    ∀ kw ∈ (runOps ops (NewTiming e)).methods,
      goDiv64 kw.2.Total kw.2.Count = some (Int.tdiv kw.2.Total kw.2.Count) ∧
      kw.2.Min ≤ Int.tdiv kw.2.Total kw.2.Count ∧
      Int.tdiv kw.2.Total kw.2.Count ≤ kw.2.Max := by
  intro kw hkw
  obtain ⟨h1, h2, h3, h4, h5⟩ :=
    runOps_statsInv ops (NewTiming e) (by simp [NewTiming]) htyped hcount htotal kw hkw
  have hb := tdiv_between h1 h2 h3
  have hne : kw.2.Count ≠ 0 := by omega
  have hq : isInt64 (Int.tdiv kw.2.Total kw.2.Count) := by
    unfold isInt64 at h4 h5 ⊢
    exact ⟨le_trans h4.1 hb.1, le_trans hb.2 h5.2⟩
  refine ⟨?_, hb.1, hb.2⟩
  rw [goDiv64_of_ne_zero hne, wrap64_of_isInt64 hq]

/-- Witness of C4 with samples of both signs and a `Clear` in between. -/
theorem average_between_min_max_witness :
    (∀ o ∈ [Op.waiting "a" (-3), Op.waiting "a" (-4), Op.clear, Op.waiting "a" 7,
        Op.waiting "b" 2, Op.waiting "a" (-2)], o.typed) ∧
    noCountOverflow [Op.waiting "a" (-3), Op.waiting "a" (-4), Op.clear, Op.waiting "a" 7,
        Op.waiting "b" 2, Op.waiting "a" (-2)] (NewTiming true) ∧
    noTotalOverflow [Op.waiting "a" (-3), Op.waiting "a" (-4), Op.clear, Op.waiting "a" 7,
        Op.waiting "b" 2, Op.waiting "a" (-2)] (NewTiming true) ∧
    ∀ kw ∈ (runOps [Op.waiting "a" (-3), Op.waiting "a" (-4), Op.clear, Op.waiting "a" 7,
        Op.waiting "b" 2, Op.waiting "a" (-2)] (NewTiming true)).methods,
      goDiv64 kw.2.Total kw.2.Count = some (Int.tdiv kw.2.Total kw.2.Count) ∧
      kw.2.Min ≤ Int.tdiv kw.2.Total kw.2.Count ∧
      Int.tdiv kw.2.Total kw.2.Count ≤ kw.2.Max :=
  have htyped : ∀ o ∈ [Op.waiting "a" (-3), Op.waiting "a" (-4), Op.clear, Op.waiting "a" 7,
      Op.waiting "b" 2, Op.waiting "a" (-2)], o.typed := by
    simp [Op.typed]
    decide
  have hcount : noCountOverflow [Op.waiting "a" (-3), Op.waiting "a" (-4), Op.clear,
      Op.waiting "a" 7, Op.waiting "b" 2, Op.waiting "a" (-2)] (NewTiming true) := by
    simp [noCountOverflow, Op.countFits, Op.apply, Timing.waiting, Timing.Clear, mapLookup,
      mapStore, NewTiming]
    decide
  have htotal : noTotalOverflow [Op.waiting "a" (-3), Op.waiting "a" (-4), Op.clear,
      Op.waiting "a" 7, Op.waiting "b" 2, Op.waiting "a" (-2)] (NewTiming true) := by
    simp [noTotalOverflow, Op.totalFits, Op.apply, Timing.waiting, Timing.Clear, mapLookup,
      mapStore, NewTiming]
    decide
  ⟨htyped, hcount, htotal, average_between_min_max true _ htyped hcount htotal⟩

/-- Repeating one sample on an existing entry does not overflow `Total` while
the partial sums stay in range. -/
theorem noTotalOverflow_replicate_present (method : String) (s : Int) (n : Nat) :
    ∀ (t : Timing) (w : Waiting), mapLookup t.methods method = some w →
      (∀ k : Nat, 1 ≤ k → k ≤ n → isInt64 (w.Total + k * s)) →
      noTotalOverflow (List.replicate n (Op.waiting method s)) t := by
  induction n with
  | zero =>
    intro t w _ _
    exact trivial
  | succ n ih =>
    intro t w hlook hfit
    have h1 : isInt64 (w.Total + s) := by
      have := hfit 1 (le_refl _) (by omega)
      simpa using this
    rw [List.replicate_succ]
    refine ⟨by simpa [Op.totalFits, hlook] using h1, ?_⟩
    refine ih (t.waiting method s) _ (waiting_lookup_present t method s w hlook) ?_
    intro k hk1 hkn
    show isInt64 (wrap64 (w.Total + s) + k * s)
    rw [wrap64_of_isInt64 h1]
    have := hfit (k + 1) (by omega) (by omega)
    have heq : w.Total + ((k + 1 : Nat) : Int) * s = w.Total + s + k * s := by
      push_cast
      ring
    rwa [heq] at this

/-- Repeating one sample under a fresh name does not overflow `Total` while
the partial sums stay in range. -/
theorem noTotalOverflow_replicate_absent (method : String) (s : Int) (n : Nat) (t : Timing)
    (habs : mapLookup t.methods method = none)
    (hfit : ∀ k : Nat, 1 ≤ k → k ≤ n → isInt64 (k * s)) :
    noTotalOverflow (List.replicate n (Op.waiting method s)) t := by
  cases n with
  | zero => exact trivial
  | succ n =>
    rw [List.replicate_succ]
    refine ⟨by simp [Op.totalFits, habs], ?_⟩
    refine noTotalOverflow_replicate_present method s n (t.waiting method s) _
      (waiting_lookup_absent t method s habs) ?_
    intro k hk1 hkn
    have := hfit (k + 1) (by omega) (by omega)
    have heq : ((k + 1 : Nat) : Int) * s = s + k * s := by
      push_cast
      ring
    rwa [heq] at this

/-- Counterexample to C4 as stated: `2^63` calls `waiting("m", -1)` after
`NewTiming(true)`. No `Total` overflows (the last one is `-2^63`), but `Count`
wraps to `-2^63`, so `Total / Count = 1`, which exceeds `Max = -1`. -/
theorem average_above_max_after_count_wrap :
    noTotalOverflow (List.replicate 9223372036854775808 (Op.waiting "m" (-1))) (NewTiming true) ∧
    (runOps (List.replicate 9223372036854775808 (Op.waiting "m" (-1))) (NewTiming true)).methods
      = [("m", { Count := -9223372036854775808, Total := -9223372036854775808,
                 Max := -1, Min := -1 })] ∧
    goDiv64 (-9223372036854775808) (-9223372036854775808) = some 1 ∧
    ¬ ((1 : Int) ≤ -1) := by
  have hs : isInt64 (-1) := by decide
  have h1 : wrap64 ((9223372036854775808 : Nat) : Int) = -9223372036854775808 := by decide
  have h2 : wrap64 (((9223372036854775808 : Nat) : Int) * (-1)) = -9223372036854775808 := by
    decide
  have ha := foldSamples_replicate_methods "m" (-1) 9223372036854775808 (NewTiming true)
    (by decide) hs rfl
  rw [h1, h2] at ha
  refine ⟨?_, ?_, by decide, by decide⟩
  · apply noTotalOverflow_replicate_absent "m" (-1) 9223372036854775808 (NewTiming true) rfl
    intro k hk1 hkn
    unfold isInt64 minInt64 maxInt64
    omega
  · rw [runOps_replicate_waiting]
    exact ha

/-! ## The total dominates the maximum for non-negative samples -/

theorem apply_max_le_total (o : Op) (t : Timing)
    (hinv : ∀ kw ∈ t.methods, 0 ≤ kw.2.Max ∧ kw.2.Max ≤ kw.2.Total)
    (hnn : o.nonneg) (htf : o.totalFits t) :
    ∀ kw ∈ (o.apply t).methods, 0 ≤ kw.2.Max ∧ kw.2.Max ≤ kw.2.Total := by
  cases o with
  | waiting method nano =>
    have hn : 0 ≤ nano := hnn
    intro kw hkw
    rcases mem_waiting t method nano kw hkw with h | ⟨_, h⟩
    · exact hinv kw h
    · cases hlook : mapLookup t.methods method with
      | none =>
        rw [waiting_lookup_absent t method nano hlook] at h
        rw [← Option.some.inj h]
        exact ⟨hn, le_refl _⟩
      | some w =>
        rw [waiting_lookup_present t method nano w hlook] at h
        rw [← Option.some.inj h]
        have hw := hinv (method, w) (mem_of_mapLookup _ _ _ hlook)
        have hw0 : 0 ≤ w.Max := hw.1
        have hw1 : w.Max ≤ w.Total := hw.2
        have ht : isInt64 (w.Total + nano) := by
          simpa [Op.totalFits, hlook] using htf
        show 0 ≤ (if nano > w.Max then nano else w.Max) ∧
          (if nano > w.Max then nano else w.Max) ≤ wrap64 (w.Total + nano)
        rw [wrap64_of_isInt64 ht]
        by_cases hgt : nano > w.Max
        · simp only [hgt, if_true]
          omega
        · simp only [hgt, if_false]
          omega
  | setEnable enable => exact hinv
  | clear =>
    intro kw hkw
    simp [Op.apply, Timing.Clear] at hkw
  | getMethodData => exact hinv

theorem runOps_max_le_total (ops : List Op) :
    ∀ t : Timing, (∀ kw ∈ t.methods, 0 ≤ kw.2.Max ∧ kw.2.Max ≤ kw.2.Total) →
      (∀ o ∈ ops, o.nonneg) → noTotalOverflow ops t →
      ∀ kw ∈ (runOps ops t).methods, 0 ≤ kw.2.Max ∧ kw.2.Max ≤ kw.2.Total := by
  induction ops with
  | nil =>
    intro t hinv _ _
    exact hinv
  | cons o rest ih =>
    intro t hinv hnn ht
    exact ih (o.apply t)
      (apply_max_le_total o t hinv (hnn o (List.mem_cons_self _ _)) ht.1)
      (fun o2 ho2 => hnn o2 (List.mem_cons_of_mem _ ho2)) ht.2

/-- C5 (amended). In every state reached from `NewTiming(e)` by a sequence of
`waiting(name, sample)` and `Clear` calls (also `SetEnable` and `GetMethodData`
calls) whose samples are all non-negative and in which no `Total` overflowed
int64, every entry satisfies `Total >= Max`. -/
theorem total_ge_max (e : Bool) (ops : List Op)
    (hnonneg : ∀ o ∈ ops, o.nonneg)
    (htotal : noTotalOverflow ops (NewTiming e)) :
    ∀ kw ∈ (runOps ops (NewTiming e)).methods, kw.2.Total ≥ kw.2.Max := by
  intro kw hkw
  exact (runOps_max_le_total ops (NewTiming e) (by simp [NewTiming]) hnonneg htotal kw hkw).2

/-- Witness of C5: durations 100, 200, 300 under "fetch", one under "store". -/
theorem total_ge_max_witness :
    (∀ o ∈ [Op.waiting "fetch" 100, Op.waiting "fetch" 200, Op.waiting "store" 0,
        Op.waiting "fetch" 300], o.nonneg) ∧
    noTotalOverflow [Op.waiting "fetch" 100, Op.waiting "fetch" 200, Op.waiting "store" 0,
        Op.waiting "fetch" 300] (NewTiming true) ∧
    ∀ kw ∈ (runOps [Op.waiting "fetch" 100, Op.waiting "fetch" 200, Op.waiting "store" 0,
        Op.waiting "fetch" 300] (NewTiming true)).methods, kw.2.Total ≥ kw.2.Max :=
  have hnonneg : ∀ o ∈ [Op.waiting "fetch" 100, Op.waiting "fetch" 200, Op.waiting "store" 0,
      Op.waiting "fetch" 300], o.nonneg := by
    simp [Op.nonneg]
  have htotal : noTotalOverflow [Op.waiting "fetch" 100, Op.waiting "fetch" 200,
      Op.waiting "store" 0, Op.waiting "fetch" 300] (NewTiming true) := by
    simp [noTotalOverflow, Op.totalFits, Op.apply, Timing.waiting, mapLookup, mapStore,
      NewTiming, wrap64]
    decide
  ⟨hnonneg, htotal, total_ge_max true _ hnonneg htotal⟩

/-- Counterexample to C5 as stated: two calls `waiting("m", -1)` after
`NewTiming(true)` overflow nothing and leave `Total = -2` below `Max = -1`. -/
theorem total_below_max_negative_samples :
    noTotalOverflow [Op.waiting "m" (-1), Op.waiting "m" (-1)] (NewTiming true) ∧
    noCountOverflow [Op.waiting "m" (-1), Op.waiting "m" (-1)] (NewTiming true) ∧
    (runOps [Op.waiting "m" (-1), Op.waiting "m" (-1)] (NewTiming true)).methods
      = [("m", { Count := 2, Total := -2, Max := -1, Min := -1 })] ∧
    ¬ ((-2 : Int) ≥ -1) := by
  refine ⟨?_, ?_, by decide, by decide⟩
  · simp [noTotalOverflow, Op.totalFits, Op.apply, Timing.waiting, mapLookup, mapStore,
      NewTiming]
    decide
  · simp [noCountOverflow, Op.countFits, Op.apply, Timing.waiting, mapLookup, mapStore,
      NewTiming]
    decide

/-! ## `Do` -/

theorem getMethodDataLoop_method (m : Methods) :
    ∀ (acc data : List MethodData), getMethodDataLoop m acc = some data →
      ∀ d ∈ data, d ∈ acc ∨ d.Method ∈ mapKeys m := by
  induction m with
  | nil =>
    intro acc data h d hd
    simp only [getMethodDataLoop, Option.some.injEq] at h
    rw [← h] at hd
    exact Or.inl hd
  | cons hd tl ih =>
    intro acc data h d hmem
    obtain ⟨k, v⟩ := hd
    rw [getMethodDataLoop] at h
    cases hq : goDiv64 v.Total v.Count with
    | none =>
      rw [hq] at h
      simp at h
    | some avg =>
      rw [hq] at h
      rcases ih _ data h d hmem with h1 | h1
      · rcases List.mem_append.mp h1 with h2 | h2
        · exact Or.inl h2
        · right
          rw [List.mem_singleton] at h2
          rw [h2]
          simp [mapKeys]
      · right
        simp only [mapKeys, List.map_cons, List.mem_cons]
        exact Or.inr h1

theorem mapLookup_ne_none_of_mem_keys (m : Methods) (k : String) (h : k ∈ mapKeys m) :
    mapLookup m k ≠ none := by
  induction m with
  | nil => simp [mapKeys] at h
  | cons hd tl ih =>
    obtain ⟨k1, w1⟩ := hd
    by_cases hk : k1 = k
    · simp [mapLookup, hk]
    · simp only [mapLookup, hk, if_false]
      apply ih
      simp only [mapKeys, List.map_cons, List.mem_cons] at h
      rcases h with h | h
      · exact absurd h.symm hk
      · exact h

theorem do_disabled {σ : Type} (clock : Nat → Int) (name : String) (f : Option (Work σ))
    (w : World σ) (hdis : w.timing.Enable = false) :
    Timing.Do clock name f w = callFunc f w := by
  simp [Timing.Do, Timing.enable, hdis]

theorem do_enabled_returned {σ : Type} (clock : Nat → Int) (name : String) (f : Work σ)
    (w w2 : World σ) (hen : w.timing.Enable = true)
    (hf : f { w with ticks := w.ticks + 1 } = (Outcome.returned, w2)) :
    Timing.Do clock name (some f) w
      = (Outcome.returned,
          { timing := w2.timing.waiting name (timeSub (clock w2.ticks) (clock w.ticks)),
            ticks := w2.ticks + 1,
            ext := w2.ext }) := by
  simp [Timing.Do, Timing.enable, hen, callFunc, hf]

theorem do_enabled_panicked {σ : Type} (clock : Nat → Int) (name : String) (f : Work σ)
    (w w2 : World σ) (r : String) (hen : w.timing.Enable = true)
    (hf : f { w with ticks := w.ticks + 1 } = (Outcome.panicked r, w2)) :
    Timing.Do clock name (some f) w = (Outcome.panicked r, w2) := by
  simp [Timing.Do, Timing.enable, hen, callFunc, hf]

/-- C6 (amended). For every aggregator state with `Enable = false`, every name
and every work `f` that does not touch the aggregator, `Do(name, f)` is one
execution of `f` and leaves the aggregator as it was, so `GetMethodData`
afterwards returns what it returned before the call: it contains no entry for
`name` when the mapping held none before the call (an entry recorded earlier
stays listed). -/
theorem disabled_do_keeps_snapshot {σ : Type} (clock : Nat → Int) (name : String)
    (f : Work σ) (w : World σ)
    (hdis : w.timing.Enable = false)
    (hframe : (f w).2.timing = w.timing) :
    Timing.Do clock name (some f) w = f w ∧
    (Timing.Do clock name (some f) w).2.timing.GetMethodData = w.timing.GetMethodData ∧
    (mapLookup w.timing.methods name = none →
      ∀ data, (Timing.Do clock name (some f) w).2.timing.GetMethodData = some data →
        ∀ d ∈ data, d.Method ≠ name) := by
  have hdo : Timing.Do clock name (some f) w = f w := do_disabled clock name (some f) w hdis
  refine ⟨hdo, by rw [hdo, hframe], ?_⟩
  intro habs data hdata d hd hname
  rw [hdo, hframe] at hdata
  rcases getMethodDataLoop_method _ _ _ hdata d hd with h | h
  · simp at h
  · rw [hname] at h
    exact mapLookup_ne_none_of_mem_keys _ _ h habs

/-- Witness of C6: a disabled aggregator holding statistics for other names,
and a work that counts its executions. -/
theorem disabled_do_keeps_snapshot_witness :
    (sampleTiming.SetEnable false).Enable = false ∧
    (countingWork { timing := sampleTiming.SetEnable false, ticks := 0, ext := 0 }).2.timing
      = sampleTiming.SetEnable false ∧
    (Timing.Do steadyClock "load" (some countingWork)
        { timing := sampleTiming.SetEnable false, ticks := 0, ext := 0 }
      = countingWork { timing := sampleTiming.SetEnable false, ticks := 0, ext := 0 } ∧
    (Timing.Do steadyClock "load" (some countingWork)
        { timing := sampleTiming.SetEnable false, ticks := 0, ext := 0 }).2.timing.GetMethodData
      = (sampleTiming.SetEnable false).GetMethodData ∧
    (mapLookup (sampleTiming.SetEnable false).methods "load" = none →
      ∀ data, (Timing.Do steadyClock "load" (some countingWork)
          { timing := sampleTiming.SetEnable false, ticks := 0, ext := 0 }).2.timing.GetMethodData
            = some data →
        ∀ d ∈ data, d.Method ≠ "load")) :=
  ⟨rfl, rfl, disabled_do_keeps_snapshot steadyClock "load" countingWork
    { timing := sampleTiming.SetEnable false, ticks := 0, ext := 0 } rfl rfl⟩

/-- Counterexample to C6 as stated: record one sample under "fetch", disable,
then `Do("fetch", f)`: `f` runs once (the counter goes from 0 to 1) and
`GetMethodData` afterwards still lists "fetch". -/
theorem disabled_do_keeps_earlier_entry :
    (runOps [Op.waiting "fetch" 5, Op.setEnable false] (NewTiming true)).Enable = false ∧
    (Timing.Do steadyClock "fetch" (some countingWork)
        { timing := runOps [Op.waiting "fetch" 5, Op.setEnable false] (NewTiming true),
          ticks := 0, ext := 0 }).2.ext = 1 ∧
    (Timing.Do steadyClock "fetch" (some countingWork)
        { timing := runOps [Op.waiting "fetch" 5, Op.setEnable false] (NewTiming true),
          ticks := 0, ext := 0 }).2.timing.GetMethodData
      = some [{ Method := "fetch", DoCount := 1, TimeNanoTotal := 5, MaxTimeNano := 5,
                MinTimeNano := 5, AvgTimeNano := 5 }] := by
  refine ⟨by decide, by decide, by decide⟩

/-- C7. For every aggregator state with `Enable = false`, every name and every
work `f`, the outcome and the state after `Do(name, f)` are exactly those of
running `f` alone; on a freshly constructed `NewTiming(false)` with `f` not
touching the aggregator, `GetMethodData` afterwards returns an empty sequence. -/
theorem disabled_do_records_nothing {σ : Type} (clock : Nat → Int) (name : String)
    (f : Work σ) (w : World σ)
    (hdis : w.timing.Enable = false) :
    Timing.Do clock name (some f) w = f w ∧
    (w.timing = NewTiming false → (f w).2.timing = w.timing →
      (Timing.Do clock name (some f) w).2.timing.GetMethodData = some []) := by
  have hdo : Timing.Do clock name (some f) w = f w := do_disabled clock name (some f) w hdis
  refine ⟨hdo, ?_⟩
  intro hnew hframe
  rw [hdo, hframe, hnew]
  rfl

/-- Witness of C7: the second example scenario of the specification. -/
theorem disabled_do_records_nothing_witness :
    (NewTiming false).Enable = false ∧
    (Timing.Do steadyClock "fetch" (some countingWork)
        { timing := NewTiming false, ticks := 0, ext := 0 }
      = countingWork { timing := NewTiming false, ticks := 0, ext := 0 } ∧
    (NewTiming false = NewTiming false →
      (countingWork { timing := NewTiming false, ticks := 0, ext := 0 }).2.timing
        = NewTiming false →
      (Timing.Do steadyClock "fetch" (some countingWork)
        { timing := NewTiming false, ticks := 0, ext := 0 }).2.timing.GetMethodData
        = some [])) :=
  ⟨rfl, disabled_do_records_nothing steadyClock "fetch" countingWork
    { timing := NewTiming false, ticks := 0, ext := 0 } rfl⟩

/-- C8. For every aggregator state, after `Clear()` `GetMethodData` returns an
empty sequence and the `Enable` flag is unchanged, and for every name and every
sample `s` a following `waiting(name, s)` leaves the mapping with the single
entry `name ↦ {Count 1, Total s, Max s, Min s}`, whatever was recorded before
the `Clear`. -/
theorem clear_resets (t : Timing) :
    t.Clear.GetMethodData = some [] ∧
    t.Clear.Enable = t.Enable ∧
    ∀ (name : String) (s : Int),
      (t.Clear.waiting name s).methods
        = [(name, { Count := 1, Total := s, Max := s, Min := s })] ∧
      mapLookup (t.Clear.waiting name s).methods name
        = some { Count := 1, Total := s, Max := s, Min := s } := by
  refine ⟨rfl, rfl, ?_⟩
  intro name s
  have h : (t.Clear.waiting name s).methods
      = [(name, { Count := 1, Total := s, Max := s, Min := s })] := by
    simp [Timing.Clear, Timing.waiting, mapLookup, mapStore]
  refine ⟨h, ?_⟩
  rw [h]
  simp [mapLookup]

/-- C9. For every enabled aggregator state, every name and every work `f`
that panics without touching the aggregator, `Do(name, f)` panics with the same
value and leaves the aggregator (flag and mapping) exactly as it was before
the call. -/
theorem enabled_do_failure_not_recorded {σ : Type} (clock : Nat → Int) (name : String)
    (f : Work σ) (w w2 : World σ) (r : String)
    (hen : w.timing.Enable = true)
    (hf : f { w with ticks := w.ticks + 1 } = (Outcome.panicked r, w2))
    (hframe : w2.timing = w.timing) :
    (Timing.Do clock name (some f) w).1 = Outcome.panicked r ∧
    (Timing.Do clock name (some f) w).2 = w2 ∧
    (Timing.Do clock name (some f) w).2.timing = w.timing := by
  rw [do_enabled_panicked clock name f w w2 r hen hf]
  exact ⟨rfl, rfl, hframe⟩

/-- Witness of C9: a panicking work on an aggregator that already holds entries. -/
theorem enabled_do_failure_not_recorded_witness :
    sampleTiming.Enable = true ∧
    failingWork { timing := sampleTiming, ticks := 0 + 1, ext := 7 }
      = (Outcome.panicked "boom", { timing := sampleTiming, ticks := 1, ext := 7 }) ∧
    ((Timing.Do steadyClock "fetch" (some failingWork)
        { timing := sampleTiming, ticks := 0, ext := 7 }).1 = Outcome.panicked "boom" ∧
    (Timing.Do steadyClock "fetch" (some failingWork)
        { timing := sampleTiming, ticks := 0, ext := 7 }).2
      = { timing := sampleTiming, ticks := 1, ext := 7 } ∧
    (Timing.Do steadyClock "fetch" (some failingWork)
        { timing := sampleTiming, ticks := 0, ext := 7 }).2.timing = sampleTiming) :=
  ⟨rfl, rfl, enabled_do_failure_not_recorded steadyClock "fetch" failingWork
    { timing := sampleTiming, ticks := 0, ext := 7 }
    { timing := sampleTiming, ticks := 1, ext := 7 } "boom" rfl rfl rfl⟩

theorem timeSub_of_fits (t u : Int) (h : isInt64 (t - u)) : timeSub t u = t - u := by
  unfold timeSub
  simp only [wrap64_of_isInt64 h]
  have h1 : ¬ (t - u < 0 ∧ t > u) := by omega
  have h2 : ¬ (t - u > 0 ∧ t < u) := by omega
  simp only [h1, h2, if_false]

theorem timeSub_nonneg (t u : Int) (h : u ≤ t) : 0 ≤ timeSub t u := by
  unfold timeSub
  simp only
  by_cases h1 : wrap64 (t - u) < 0 ∧ t > u
  · simp only [h1, and_self, if_true]
    decide
  · have h2 : ¬ (wrap64 (t - u) > 0 ∧ t < u) := by omega
    simp only [h1, h2, if_false]
    by_cases h3 : t = u
    · rw [h3, sub_self]
      decide
    · have h4 : t > u := by omega
      by_contra h5
      exact h1 ⟨by omega, h4⟩

/-- C10 (amended). For every aggregator state with `Enable = true`, every name
and every work `f` that returns normally, `Do(name, f)` takes a clock reading,
runs `f` once, takes a second reading and performs exactly one
`waiting(name, d)` on the state `f` left behind, where `d` is the number of
nanoseconds between the two readings (readings of Go's monotonic clock:
non-negative int64 nanoseconds); with a monotonic clock `d >= 0`. Afterwards
the `Count` of the name is 1 if `f` left no entry for it, and otherwise one
more than the `Count` that `f` left whenever that `Count` is below the largest
int64 (in general that `Count` plus one in int64 arithmetic). -/
theorem enabled_do_folds_one_sample {σ : Type} (clock : Nat → Int) (name : String)
    (f : Work σ) (w w2 : World σ)
    (hen : w.timing.Enable = true)
    (hf : f { w with ticks := w.ticks + 1 } = (Outcome.returned, w2))
    (hstart : isMonoReading (clock w.ticks))
    (hnow : isMonoReading (clock w2.ticks)) :
    Timing.Do clock name (some f) w
      = (Outcome.returned,
          { timing := w2.timing.waiting name (clock w2.ticks - clock w.ticks),
            ticks := w2.ticks + 1,
            ext := w2.ext }) ∧
    (Monotone clock → w.ticks ≤ w2.ticks → 0 ≤ clock w2.ticks - clock w.ticks) ∧
    (mapLookup w2.timing.methods name = none →
      (mapLookup (Timing.Do clock name (some f) w).2.timing.methods name).map Waiting.Count
        = some 1) ∧
    (∀ v, mapLookup w2.timing.methods name = some v →
      (mapLookup (Timing.Do clock name (some f) w).2.timing.methods name).map Waiting.Count
        = some (wrap64 (v.Count + 1)) ∧
      (isInt64 v.Count → v.Count < maxInt64 →
        (mapLookup (Timing.Do clock name (some f) w).2.timing.methods name).map Waiting.Count
          = some (v.Count + 1))) := by
  have hfit : isInt64 (clock w2.ticks - clock w.ticks) := by
    unfold isMonoReading maxInt64 at hstart hnow
    unfold isInt64 minInt64 maxInt64
    omega
  have hdo := do_enabled_returned clock name f w w2 hen hf
  rw [timeSub_of_fits _ _ hfit] at hdo
  refine ⟨hdo, ?_, ?_, ?_⟩
  · intro hmono hticks
    have := hmono hticks
    omega
  · intro habs
    rw [hdo]
    simp only
    rw [waiting_lookup_absent _ _ _ habs]
    rfl
  · intro v hv
    have hcount : (mapLookup (Timing.Do clock name (some f) w).2.timing.methods name).map
        Waiting.Count = some (wrap64 (v.Count + 1)) := by
      rw [hdo]
      simp only
      rw [waiting_lookup_present _ _ _ v hv]
      rfl
    refine ⟨hcount, ?_⟩
    intro hint hlt
    rw [hcount]
    have hfit2 : isInt64 (v.Count + 1) := by
      unfold isInt64 minInt64 maxInt64 at *
      omega
    rw [wrap64_of_isInt64 hfit2]

/-- Witness of C10: the work counts its executions, the clock advances 100 ns
per reading; the sample folded under "fetch" is 100 and its `Count` goes from
2 to 3. -/
theorem enabled_do_folds_one_sample_witness :
    sampleTiming.Enable = true ∧
    countingWork { timing := sampleTiming, ticks := 0 + 1, ext := 0 }
      = (Outcome.returned, { timing := sampleTiming, ticks := 1, ext := 1 }) ∧
    isMonoReading (steadyClock 0) ∧ isMonoReading (steadyClock 1) ∧
    Timing.Do steadyClock "fetch" (some countingWork)
        { timing := sampleTiming, ticks := 0, ext := 0 }
      = (Outcome.returned,
          { timing := sampleTiming.waiting "fetch" (steadyClock 1 - steadyClock 0),
            ticks := 1 + 1,
            ext := 1 }) ∧
    (mapLookup sampleTiming.methods "fetch").map Waiting.Count = some 2 ∧
    (mapLookup (Timing.Do steadyClock "fetch" (some countingWork)
        { timing := sampleTiming, ticks := 0, ext := 0 }).2.timing.methods "fetch").map
          Waiting.Count = some (2 + 1) :=
  have h := enabled_do_folds_one_sample steadyClock "fetch" countingWork
    { timing := sampleTiming, ticks := 0, ext := 0 }
    { timing := sampleTiming, ticks := 1, ext := 1 } rfl rfl (by decide) (by decide)
  ⟨rfl, rfl, by decide, by decide, h.1, by decide,
    (h.2.2.2 { Count := 2, Total := 7, Max := 4, Min := 3 } (by decide)).2
      (by decide) (by decide)⟩

/-- Counterexample to C10 as stated: the state reached from `NewTiming(true)` by
`2^63 - 1` calls `waiting("m", 0)` holds `Count = 2^63 - 1` for "m"; an enabled
`Do("m", f)` then leaves `Count = -2^63`, not one more. -/
theorem enabled_do_count_wraps :
    runOps (List.replicate 9223372036854775807 (Op.waiting "m" 0)) (NewTiming true)
      = fullCountTiming ∧
    (Timing.Do (fun _ => 0) "m" (some countingWork)
        { timing := fullCountTiming, ticks := 0, ext := 0 }).1 = Outcome.returned ∧
    mapLookup fullCountTiming.methods "m"
      = some { Count := 9223372036854775807, Total := 0, Max := 0, Min := 0 } ∧
    mapLookup (Timing.Do (fun _ => 0) "m" (some countingWork)
        { timing := fullCountTiming, ticks := 0, ext := 0 }).2.timing.methods "m"
      = some { Count := -9223372036854775808, Total := 0, Max := 0, Min := 0 } := by
  refine ⟨?_, by decide, by decide, by decide⟩
  have hz : isInt64 0 := by decide
  have h1 : wrap64 ((9223372036854775807 : Nat) : Int) = 9223372036854775807 := by decide
  have h2 : wrap64 (((9223372036854775807 : Nat) : Int) * 0) = 0 := by decide
  have ha := foldSamples_replicate_methods "m" 0 9223372036854775807 (NewTiming true)
    (by decide) hz rfl
  rw [h1, h2] at ha
  have hen : ∀ (samples : List Int) (t : Timing),
      (foldSamples "m" samples t).Enable = t.Enable := by
    intro samples
    induction samples with
    | nil =>
      intro t
      rfl
    | cons s rest ih =>
      intro t
      rw [foldSamples, ih]
      unfold Timing.waiting
      cases mapLookup t.methods "m" <;> rfl
  rw [runOps_replicate_waiting]
  have hE := hen (List.replicate 9223372036854775807 0) (NewTiming true)
  generalize foldSamples "m" (List.replicate 9223372036854775807 0) (NewTiming true) = t at ha hE
  cases t with
  | mk en ms =>
    simp only at ha hE
    rw [ha, hE]
    rfl

/-! ## The snapshot lists every name once -/

theorem mem_keys_of_mapLookup (m : Methods) (k : String) (h : mapLookup m k ≠ none) :
    k ∈ mapKeys m := by
  cases hl : mapLookup m k with
  | none => exact absurd hl h
  | some v =>
    have hmem := mem_of_mapLookup m k v hl
    exact List.mem_map.mpr ⟨(k, v), hmem, rfl⟩

theorem map_method_methodDataOf (m : Methods) :
    (m.map (fun kw => methodDataOf kw.1 kw.2)).map MethodData.Method = mapKeys m := by
  induction m with
  | nil => rfl
  | cons hd tl ih =>
    simp only [List.map_cons, mapKeys] at ih ⊢
    rw [ih]
    rfl

/-- C11 (amended). For every aggregator state (a Go map: keys pairwise
distinct) in which every entry has `Count != 0`, `GetMethodData` returns a
sequence whose length is the number of keys of the mapping, whose `Method`
values are pairwise distinct, and in which a name occurs as a `Method` if and
only if the mapping has an entry for that name; the call leaves the mapping
and the `Enable` flag unchanged. -/
theorem getMethodData_lists_each_name_once (t : Timing) (hwf : MapWF t.methods)
    (hcount : ∀ kw ∈ t.methods, kw.2.Count ≠ 0) :
    (∃ data, t.GetMethodData = some data ∧
      data.length = (mapKeys t.methods).length ∧
      (data.map MethodData.Method).Nodup ∧
      ∀ name : String, (∃ d ∈ data, d.Method = name) ↔ mapLookup t.methods name ≠ none) ∧
    Op.getMethodData.apply t = t := by
  refine ⟨⟨[] ++ t.methods.map (fun kw => methodDataOf kw.1 kw.2),
    getMethodDataLoop_eq t.methods [] hcount, ?_, ?_, ?_⟩, rfl⟩
  · simp [mapKeys]
  · rw [List.nil_append, map_method_methodDataOf]
    exact hwf
  · intro name
    rw [List.nil_append]
    constructor
    · rintro ⟨d, hd, hname⟩
      apply mapLookup_ne_none_of_mem_keys
      rw [← map_method_methodDataOf, ← hname]
      exact List.mem_map_of_mem _ hd
    · intro hl
      have hk := mem_keys_of_mapLookup _ _ hl
      rw [← map_method_methodDataOf] at hk
      obtain ⟨d, hd, hname⟩ := List.mem_map.mp hk
      exact ⟨d, hd, hname⟩

/-- Witness of C11 on a state with two entries. -/
theorem getMethodData_lists_each_name_once_witness :
    MapWF sampleTiming.methods ∧ (∀ kw ∈ sampleTiming.methods, kw.2.Count ≠ 0) ∧
    ((∃ data, sampleTiming.GetMethodData = some data ∧
      data.length = (mapKeys sampleTiming.methods).length ∧
      (data.map MethodData.Method).Nodup ∧
      ∀ name : String,
        (∃ d ∈ data, d.Method = name) ↔ mapLookup sampleTiming.methods name ≠ none) ∧
    Op.getMethodData.apply sampleTiming = sampleTiming) :=
  ⟨by decide, by decide,
    getMethodData_lists_each_name_once sampleTiming (by decide) (by decide)⟩

/-- Counterexample to C11 as stated: in a state whose entry "m" has `Count = 0`
the mapping has one key, but `GetMethodData` panics on `Total / Count` and
returns no sequence. -/
theorem getMethodData_panics_on_zero_count :
    MapWF zeroCountTiming.methods ∧
    (mapKeys zeroCountTiming.methods).length = 1 ∧
    mapLookup zeroCountTiming.methods "m" ≠ none ∧
    zeroCountTiming.GetMethodData = none := by
  refine ⟨by decide, by decide, by decide, by decide⟩

/-! ## `SetEnable` -/

/-- C12. For every aggregator state and every boolean `e`, after
`SetEnable(e)` the flag read by `enable()` is `e` and the mapping is unchanged;
hence a `Do` issued after `SetEnable(false)` is just one run of its work, a
`Do` issued after `SetEnable(true)` whose work returns folds one sample with
`waiting`, and `GetMethodData` after `SetEnable(false)` reports what it
reported before. -/
theorem setEnable_sets_only_flag {σ : Type} (clock : Nat → Int) (name : String)
    (f : Work σ) (w w2 : World σ) (e : Bool)
    (hf : f { timing := w.timing.SetEnable true, ticks := w.ticks + 1, ext := w.ext }
      = (Outcome.returned, w2)) :
    (w.timing.SetEnable e).enable = e ∧
    (w.timing.SetEnable e).methods = w.timing.methods ∧
    (∀ name2 : String,
      mapLookup (w.timing.SetEnable e).methods name2 = mapLookup w.timing.methods name2) ∧
    Timing.Do clock name (some f) { w with timing := w.timing.SetEnable false }
      = f { w with timing := w.timing.SetEnable false } ∧
    Timing.Do clock name (some f) { w with timing := w.timing.SetEnable true }
      = (Outcome.returned,
          { timing := w2.timing.waiting name (timeSub (clock w2.ticks) (clock w.ticks)),
            ticks := w2.ticks + 1,
            ext := w2.ext }) ∧
    (w.timing.SetEnable false).GetMethodData = w.timing.GetMethodData := by
  refine ⟨rfl, rfl, fun _ => rfl, ?_, ?_, rfl⟩
  · exact do_disabled clock name (some f) _ rfl
  · exact do_enabled_returned clock name f
      { w with timing := w.timing.SetEnable true } w2 rfl hf

/-- Witness of C12: statistics recorded while enabled, then the flag is switched. -/
theorem setEnable_sets_only_flag_witness :
    countingWork { timing := sampleTiming.SetEnable true, ticks := 0 + 1, ext := 0 }
      = (Outcome.returned, { timing := sampleTiming, ticks := 1, ext := 1 }) ∧
    ((sampleTiming.SetEnable false).enable = false ∧
    (sampleTiming.SetEnable false).methods = sampleTiming.methods ∧
    (∀ name2 : String,
      mapLookup (sampleTiming.SetEnable false).methods name2
        = mapLookup sampleTiming.methods name2) ∧
    Timing.Do steadyClock "fetch" (some countingWork)
        { timing := sampleTiming.SetEnable false, ticks := 0, ext := 0 }
      = countingWork { timing := sampleTiming.SetEnable false, ticks := 0, ext := 0 } ∧
    Timing.Do steadyClock "fetch" (some countingWork)
        { timing := sampleTiming.SetEnable true, ticks := 0, ext := 0 }
      = (Outcome.returned,
          { timing := sampleTiming.waiting "fetch" (timeSub (steadyClock 1) (steadyClock 0)),
            ticks := 1 + 1,
            ext := 1 }) ∧
    (sampleTiming.SetEnable false).GetMethodData = sampleTiming.GetMethodData) :=
  ⟨rfl, setEnable_sets_only_flag steadyClock "fetch" countingWork
    { timing := sampleTiming, ticks := 0, ext := 0 }
    { timing := sampleTiming, ticks := 1, ext := 1 } false rfl⟩

/-! ## Stopwatch -/

/-- C13 (code evaluated at the failing input). A `Timer` made by `NewTimer` at
an instant in the year 2026 has the zero `time.Time` as `start`, not the
construction instant, and `Duration()` called 5 ms later without any `Reset`
returns the saturated 9223372036854775 microseconds instead of 5000; after a
`Reset` at the same instant it returns 5000. -/
theorem newTimer_start_is_zero_time :
    (NewTimer 63900000000000000000).start = zeroTime ∧
    (NewTimer 63900000000000000000).start ≠ 63900000000000000000 ∧
    ((NewTimer 63900000000000000000).Duration 63900000000005000000).1 = 9223372036854775 ∧
    (((NewTimer 63900000000000000000).Reset 63900000000000000000).Duration
      63900000000005000000).1 = 5000 := by
  refine ⟨rfl, by decide, by decide, by decide⟩

theorem wallSub_of_fits (t u : Int) (h : isInt64 (t - u)) : wallSub t u = t - u := by
  unfold isInt64 at h
  unfold wallSub
  have h1 : ¬ (t - u > maxInt64) := by omega
  have h2 : ¬ (t - u < minInt64) := by omega
  simp only [h1, h2, if_false]

/-- C14. For a `Timer` on which `Reset` was called at instant `s` and
`Duration` is called at instant `n >= s` with `n - s` representable in int64
nanoseconds, `Duration` returns `(n - s) / 1000` truncated to an integer (the
number `q` of whole microseconds: `1000 q <= n - s < 1000 (q + 1)`) and leaves
`start` equal to `s`, so a later `Duration` call still measures from `s`. -/
theorem duration_truncated_micros (timer : Timer) (s n : Int)
    (hle : s ≤ n) (hfit : isInt64 (n - s)) :
    ((timer.Reset s).Duration n).1 = Int.tdiv (n - s) 1000 ∧
    0 ≤ ((timer.Reset s).Duration n).1 ∧
    1000 * ((timer.Reset s).Duration n).1 ≤ n - s ∧
    n - s < 1000 * (((timer.Reset s).Duration n).1 + 1) ∧
    ((timer.Reset s).Duration n).2.start = s ∧
    ((timer.Reset s).Duration n).2 = timer.Reset s ∧
    ∀ n2 : Int, (((timer.Reset s).Duration n).2.Duration n2).1
      = Int.tdiv (wallSub n2 s) 1000 := by
  have hd : ((timer.Reset s).Duration n).1 = Int.tdiv (n - s) 1000 := by
    show Int.tdiv (wallSub n s) 1000 = Int.tdiv (n - s) 1000
    rw [wallSub_of_fits n s hfit]
  have hq : Int.tdiv (n - s) 1000 = (n - s) / 1000 :=
    Int.tdiv_eq_ediv (by omega) (by decide)
  refine ⟨hd, ?_, ?_, ?_, rfl, rfl, fun _ => rfl⟩
  · rw [hd, hq]
    omega
  · rw [hd, hq]
    omega
  · rw [hd, hq]
    omega

/-- Witness of C14: reset at an instant of the year 2026, read 1234567 ns later. -/
theorem duration_truncated_micros_witness :
    (63900000000000000000 : Int) ≤ 63900000000001234567 ∧
    isInt64 (63900000000001234567 - 63900000000000000000) ∧
    (((NewTimer 0).Reset 63900000000000000000).Duration 63900000000001234567).1
      = Int.tdiv (63900000000001234567 - 63900000000000000000) 1000 ∧
    Int.tdiv (63900000000001234567 - 63900000000000000000) 1000 = 1234 :=
  ⟨by decide, by decide,
    (duration_truncated_micros (NewTimer 0) 63900000000000000000 63900000000001234567
      (by decide) (by decide)).1, by decide⟩

/-! ## Re-entrant `Do` -/

theorem steadyClock_monotone : Monotone steadyClock := by
  intro a b h
  unfold steadyClock
  show (100 : Int) * (a : Int) ≤ 100 * (b : Int)
  omega

theorem lateClock_monotone : Monotone lateClock := by
  intro a b h
  unfold lateClock
  show (if a < 2 then (0 : Int) else 9223372036854775807)
    ≤ (if b < 2 then (0 : Int) else 9223372036854775807)
  by_cases ha : a < 2
  · by_cases hb : b < 2
    · simp [ha, hb]
    · simp [ha, hb]
  · have hb : ¬ b < 2 := by omega
    simp [ha, hb]

theorem waitingLock_free {σ : Type} (method : String) (nano : Int) (w : LockWorld σ)
    (hfree : w.locked = false) :
    Timing.waitingLock method nano w
      = (LockOutcome.returned,
          { timing := w.timing.waiting method nano, locked := false,
            ticks := w.ticks, ext := w.ext }) := by
  simp [Timing.waitingLock, hfree]

theorem waitingLock_held {σ : Type} (method : String) (nano : Int) (w : LockWorld σ)
    (hheld : w.locked = true) :
    (Timing.waitingLock method nano w).1 = LockOutcome.blocked := by
  simp [Timing.waitingLock, hheld]

theorem doLock_enabled_returned {σ : Type} (clock : Nat → Int) (name : String)
    (f : LockWork σ) (w w2 : LockWorld σ) (hen : w.timing.Enable = true)
    (hf : f { w with ticks := w.ticks + 1 } = (LockOutcome.returned, w2))
    (hfree : w2.locked = false) :
    Timing.DoLock clock name f w
      = (LockOutcome.returned,
          { timing := w2.timing.waiting name (timeSub (clock w2.ticks) (clock w.ticks)),
            locked := false,
            ticks := w2.ticks + 1,
            ext := w2.ext }) := by
  simp only [Timing.DoLock, Timing.enable, hen, hf]
  exact waitingLock_free name _ _ hfree

/-- C16 (amended). For an enabled aggregator with no entry for `n` whose mutex
is free, a monotonic clock (readings non-negative int64 nanoseconds) and an
inner work `g` that returns normally without touching the aggregator or its
mutex, `Do(n, func(){ Do(n, g) })` returns: neither `t.mutex.Lock()` blocks,
because no lock is held while the work runs. The inner call folds its sample
first (creating the entry with `Count = 1`), then the outer one, and `n` ends
with `Count = 2`, `Min = inner`, `Max = outer` and `inner <= outer`; `Total` is
`inner + outer` in int64 arithmetic, hence `inner + outer` provided that sum
does not overflow int64. -/
theorem nested_do_records_both_levels {σ : Type} (clock : Nat → Int) (n : String)
    (g : LockWork σ) (w w2 : LockWorld σ)
    (hen : w.timing.Enable = true)
    (hfree : w.locked = false)
    (habs : mapLookup w.timing.methods n = none)
    (hmono : Monotone clock)
    (hr0 : isMonoReading (clock w.ticks))
    (hr1 : isMonoReading (clock (w.ticks + 1)))
    (hr2 : isMonoReading (clock w2.ticks))
    (hr3 : isMonoReading (clock (w2.ticks + 1)))
    (hg : g { w with ticks := w.ticks + 1 + 1 } = (LockOutcome.returned, w2))
    (hframe : w2.timing = w.timing)
    (hlock : w2.locked = w.locked) :
    (Timing.DoLock clock n (Timing.DoLock clock n g) w).1 = LockOutcome.returned ∧
    (Timing.DoLock clock n (Timing.DoLock clock n g) w).2.locked = false ∧
    (Timing.DoLock clock n g { w with ticks := w.ticks + 1 }).1 = LockOutcome.returned ∧
    mapLookup (Timing.DoLock clock n g { w with ticks := w.ticks + 1 }).2.timing.methods n
      = some { Count := 1,
               Total := clock w2.ticks - clock (w.ticks + 1),
               Max := clock w2.ticks - clock (w.ticks + 1),
               Min := clock w2.ticks - clock (w.ticks + 1) } ∧
    mapLookup (Timing.DoLock clock n (Timing.DoLock clock n g) w).2.timing.methods n
      = some { Count := 2,
               Total := wrap64 ((clock w2.ticks - clock (w.ticks + 1))
                 + (clock (w2.ticks + 1) - clock w.ticks)),
               Max := clock (w2.ticks + 1) - clock w.ticks,
               Min := clock w2.ticks - clock (w.ticks + 1) } ∧
    (isInt64 ((clock w2.ticks - clock (w.ticks + 1)) + (clock (w2.ticks + 1) - clock w.ticks)) →
      mapLookup (Timing.DoLock clock n (Timing.DoLock clock n g) w).2.timing.methods n
        = some { Count := 2,
                 Total := (clock w2.ticks - clock (w.ticks + 1))
                   + (clock (w2.ticks + 1) - clock w.ticks),
                 Max := clock (w2.ticks + 1) - clock w.ticks,
                 Min := clock w2.ticks - clock (w.ticks + 1) }) ∧
    clock w2.ticks - clock (w.ticks + 1) ≤ clock (w2.ticks + 1) - clock w.ticks := by
  have hfree2 : w2.locked = false := by
    rw [hlock]
    exact hfree
  have hle : clock w2.ticks - clock (w.ticks + 1) ≤ clock (w2.ticks + 1) - clock w.ticks := by
    have h1 : clock w.ticks ≤ clock (w.ticks + 1) := hmono (Nat.le_succ _)
    have h2 : clock w2.ticks ≤ clock (w2.ticks + 1) := hmono (Nat.le_succ _)
    omega
  have hin : isInt64 (clock w2.ticks - clock (w.ticks + 1)) := by
    unfold isMonoReading maxInt64 at hr1 hr2
    unfold isInt64 minInt64 maxInt64
    omega
  have hout : isInt64 (clock (w2.ticks + 1) - clock w.ticks) := by
    unfold isMonoReading maxInt64 at hr0 hr3
    unfold isInt64 minInt64 maxInt64
    omega
  have hinner := doLock_enabled_returned clock n g { w with ticks := w.ticks + 1 } w2 hen hg
    hfree2
  rw [timeSub_of_fits _ _ hin] at hinner
  have houter := doLock_enabled_returned clock n (Timing.DoLock clock n g) w _ hen hinner rfl
  rw [timeSub_of_fits _ _ hout] at houter
  have habs2 : mapLookup w2.timing.methods n = none := by
    rw [hframe]
    exact habs
  have hfirst := waiting_lookup_absent w2.timing n (clock w2.ticks - clock (w.ticks + 1)) habs2
  have hsecond := waiting_lookup_present _ n (clock (w2.ticks + 1) - clock w.ticks) _ hfirst
  have hmin : ¬ (clock (w2.ticks + 1) - clock w.ticks < clock w2.ticks - clock (w.ticks + 1)) := by
    omega
  have hfinal : mapLookup
      (Timing.DoLock clock n (Timing.DoLock clock n g) w).2.timing.methods n
      = some { Count := 2,
               Total := wrap64 ((clock w2.ticks - clock (w.ticks + 1))
                 + (clock (w2.ticks + 1) - clock w.ticks)),
               Max := clock (w2.ticks + 1) - clock w.ticks,
               Min := clock w2.ticks - clock (w.ticks + 1) } := by
    rw [houter]
    simp only
    rw [hsecond]
    simp only [hmin, if_false]
    have htwo : wrap64 (1 + 1) = 2 := by decide
    rw [htwo]
    by_cases hgt : clock (w2.ticks + 1) - clock w.ticks > clock w2.ticks - clock (w.ticks + 1)
    · simp only [hgt, if_true]
    · simp only [hgt, if_false]
      have heq : clock w2.ticks - clock (w.ticks + 1) = clock (w2.ticks + 1) - clock w.ticks := by
        omega
      rw [← heq]
  refine ⟨by rw [houter], by rw [houter], by rw [hinner], ?_, hfinal, ?_, hle⟩
  · rw [hinner]
    exact hfirst
  · intro hfit
    rw [hfinal, wrap64_of_isInt64 hfit]

/-- Witness of C16: readings 0, 100, 200, 300, so `inner = 100` and `outer = 300`. -/
theorem nested_do_records_both_levels_witness :
    (NewTiming true).Enable = true ∧
    mapLookup (NewTiming true).methods "fetch" = none ∧
    Monotone steadyClock ∧
    countingLockWork { timing := NewTiming true, locked := false, ticks := 0 + 1 + 1, ext := 0 }
      = (LockOutcome.returned,
          { timing := NewTiming true, locked := false, ticks := 2, ext := 1 }) ∧
    (Timing.DoLock steadyClock "fetch" (Timing.DoLock steadyClock "fetch" countingLockWork)
        { timing := NewTiming true, locked := false, ticks := 0, ext := 0 }).1
      = LockOutcome.returned ∧
    mapLookup (Timing.DoLock steadyClock "fetch"
        (Timing.DoLock steadyClock "fetch" countingLockWork)
        { timing := NewTiming true, locked := false, ticks := 0,
          ext := 0 }).2.timing.methods "fetch"
      = some { Count := 2,
               Total := wrap64 ((steadyClock 2 - steadyClock (0 + 1))
                 + (steadyClock (2 + 1) - steadyClock 0)),
               Max := steadyClock (2 + 1) - steadyClock 0,
               Min := steadyClock 2 - steadyClock (0 + 1) } ∧
    steadyClock 2 - steadyClock (0 + 1) = 100 ∧ steadyClock (2 + 1) - steadyClock 0 = 300 ∧
    wrap64 ((steadyClock 2 - steadyClock (0 + 1)) + (steadyClock (2 + 1) - steadyClock 0))
      = 400 :=
  have hthm := nested_do_records_both_levels steadyClock "fetch" countingLockWork
    { timing := NewTiming true, locked := false, ticks := 0, ext := 0 }
    { timing := NewTiming true, locked := false, ticks := 2, ext := 1 }
    rfl rfl rfl steadyClock_monotone (by decide) (by decide) (by decide) (by decide) rfl rfl rfl
  ⟨rfl, rfl, steadyClock_monotone, rfl, hthm.1, hthm.2.2.2.2.1, by decide, by decide,
    by decide⟩

/-- Counterexample to C16 as stated: with the monotonic readings 0, 0,
`2^63 - 1`, `2^63 - 1` both samples are `2^63 - 1`; the call returns and the
entry ends with `Count = 2`, `Min = inner`, `Max = outer`, but `Total = -2`,
not `inner + outer`: the statement `w.Total += nano` wraps around. -/
theorem nested_do_total_wraps :
    Monotone lateClock ∧
    lateClock 2 - lateClock 1 = 9223372036854775807 ∧
    lateClock 3 - lateClock 0 = 9223372036854775807 ∧
    (Timing.DoLock lateClock "n" (Timing.DoLock lateClock "n" countingLockWork)
        { timing := NewTiming true, locked := false, ticks := 0, ext := 0 }).1
      = LockOutcome.returned ∧
    mapLookup (Timing.DoLock lateClock "n" (Timing.DoLock lateClock "n" countingLockWork)
        { timing := NewTiming true, locked := false, ticks := 0, ext := 0 }).2.timing.methods "n"
      = some { Count := 2, Total := -2,
               Max := 9223372036854775807, Min := 9223372036854775807 } ∧
    (-2 : Int) ≠ 9223372036854775807 + 9223372036854775807 := by
  refine ⟨lateClock_monotone, by decide, by decide, by decide, by decide, by decide⟩

/-! ## The enable check -/

theorem waiting_Enable (t : Timing) (method : String) (nano : Int) :
    (t.waiting method nano).Enable = t.Enable := by
  unfold Timing.waiting
  cases mapLookup t.methods method <;> rfl

/-- C17 (amended). The enable check is taken once, before the work runs. For
an enabled aggregator and a work `f` that returns normally having called
`SetEnable(false)`, `Do(name, f)` still folds its one sample under `name` on
the state `f` left (`Count` for `name` becomes 1 if there was no entry and
grows by 1 if there was one with `Count` below the largest int64) and ends with
`Enable = false`. For a disabled aggregator and a work `h` that calls
`SetEnable(true)`, `Do(name, h)` is just the run of `h`: it folds nothing and
ends with `Enable = true`. -/
theorem enable_check_taken_once {σ : Type} (clock : Nat → Int) (name : String)
    (f h : Work σ) (w w2 v v2 : World σ) (oc : Outcome)
    (hen : w.timing.Enable = true)
    (hf : f { w with ticks := w.ticks + 1 } = (Outcome.returned, w2))
    (hoff : w2.timing.Enable = false)
    (hdis : v.timing.Enable = false)
    (hh : h v = (oc, v2))
    (hon : v2.timing.Enable = true) :
    Timing.Do clock name (some f) w
      = (Outcome.returned,
          { timing := w2.timing.waiting name (timeSub (clock w2.ticks) (clock w.ticks)),
            ticks := w2.ticks + 1,
            ext := w2.ext }) ∧
    (Timing.Do clock name (some f) w).2.timing.Enable = false ∧
    (mapLookup w2.timing.methods name = none →
      (mapLookup (Timing.Do clock name (some f) w).2.timing.methods name).map Waiting.Count
        = some 1) ∧
    (∀ c, mapLookup w2.timing.methods name = some c → isInt64 c.Count → c.Count < maxInt64 →
      (mapLookup (Timing.Do clock name (some f) w).2.timing.methods name).map Waiting.Count
        = some (c.Count + 1)) ∧
    Timing.Do clock name (some h) v = (oc, v2) ∧
    (Timing.Do clock name (some h) v).2.timing = v2.timing ∧
    (Timing.Do clock name (some h) v).2.timing.Enable = true := by
  have hdo := do_enabled_returned clock name f w w2 hen hf
  have hdo2 : Timing.Do clock name (some h) v = (oc, v2) := by
    rw [do_disabled clock name (some h) v hdis]
    exact hh
  refine ⟨hdo, ?_, ?_, ?_, hdo2, by rw [hdo2], by rw [hdo2]; exact hon⟩
  · rw [hdo]
    simp only
    rw [waiting_Enable]
    exact hoff
  · intro habs
    rw [hdo]
    simp only
    rw [waiting_lookup_absent _ _ _ habs]
    rfl
  · intro c hc hint hlt
    rw [hdo]
    simp only
    rw [waiting_lookup_present _ _ _ c hc]
    have hfit : isInt64 (c.Count + 1) := by
      unfold isInt64 minInt64 maxInt64 at *
      omega
    show some (wrap64 (c.Count + 1)) = some (c.Count + 1)
    rw [wrap64_of_isInt64 hfit]

/-- Witness of C17: an enabled aggregator with a work that disables it, and a
disabled one with a work that enables it. -/
theorem enable_check_taken_once_witness :
    sampleTiming.Enable = true ∧
    disablingWork { timing := sampleTiming, ticks := 0 + 1, ext := 0 }
      = (Outcome.returned, { timing := sampleTiming.SetEnable false, ticks := 1, ext := 0 }) ∧
    (sampleTiming.SetEnable false).Enable = false ∧
    enablingWork { timing := sampleTiming.SetEnable false, ticks := 0, ext := 0 }
      = (Outcome.returned, { timing := sampleTiming, ticks := 0, ext := 0 }) ∧
    (Timing.Do steadyClock "fetch" (some disablingWork)
        { timing := sampleTiming, ticks := 0, ext := 0 }).2.timing.Enable = false ∧
    (mapLookup (Timing.Do steadyClock "fetch" (some disablingWork)
        { timing := sampleTiming, ticks := 0, ext := 0 }).2.timing.methods "fetch").map
          Waiting.Count = some (2 + 1) ∧
    (Timing.Do steadyClock "fetch" (some enablingWork)
        { timing := sampleTiming.SetEnable false, ticks := 0, ext := 0 }).2.timing
      = sampleTiming :=
  have hthm := enable_check_taken_once steadyClock "fetch" disablingWork enablingWork
    { timing := sampleTiming, ticks := 0, ext := 0 }
    { timing := sampleTiming.SetEnable false, ticks := 1, ext := 0 }
    { timing := sampleTiming.SetEnable false, ticks := 0, ext := 0 }
    { timing := sampleTiming, ticks := 0, ext := 0 }
    Outcome.returned rfl rfl rfl rfl rfl rfl
  ⟨rfl, rfl, rfl, rfl, hthm.2.1,
    hthm.2.2.2.1 { Count := 2, Total := 7, Max := 4, Min := 3 } (by decide) (by decide)
      (by decide),
    hthm.2.2.2.2.2.1⟩

/-- Counterexample to C17 as stated: on an enabled aggregator whose entry "m"
has `Count = 2^63 - 1`, `Do("m", f)` with `f` calling `SetEnable(false)` ends
with `Enable = false` and has folded its sample, but `Count` is `-2^63`: it did
not grow by 1. -/
theorem disabling_do_count_wraps :
    fullCountTiming.Enable = true ∧
    (mapLookup fullCountTiming.methods "m").map Waiting.Count = some 9223372036854775807 ∧
    (Timing.Do (fun _ => 0) "m" (some disablingWork)
        { timing := fullCountTiming, ticks := 0, ext := 0 }).1 = Outcome.returned ∧
    (Timing.Do (fun _ => 0) "m" (some disablingWork)
        { timing := fullCountTiming, ticks := 0, ext := 0 }).2.timing.Enable = false ∧
    (mapLookup (Timing.Do (fun _ => 0) "m" (some disablingWork)
        { timing := fullCountTiming, ticks := 0, ext := 0 }).2.timing.methods "m").map
          Waiting.Count = some (-9223372036854775808) := by
  refine ⟨rfl, by decide, by decide, by decide, by decide⟩

/-! ## Package-level `Do` -/

/-- C18. For every state of the default aggregator, the package-level
`Do(method, f)` with `method = ""` or `f = nil` returns without invoking `f`
and leaves the whole state, the default aggregator included, unchanged; with
`method` non-empty and `f` non-nil it is exactly `std.Do(method, f)`. -/
theorem package_do_filters_invalid_input {σ : Type} (clock : Nat → Int) (method : String)
    (f : Option (Work σ)) (g : Work σ) (w : World σ) :
    (method = "" ∨ f = none → Do clock method f w = (Outcome.returned, w)) ∧
    (method ≠ "" → Do clock method (some g) w = Timing.Do clock method (some g) w) := by
  constructor
  · intro hbad
    have hcond : method = "" ∨ f.isNone = true := by
      rcases hbad with h1 | h2
      · exact Or.inl h1
      · right
        rw [h2]
        rfl
    simp only [Do, hcond, if_true]
  · intro hne
    have hcond : ¬ (method = "" ∨ (some g).isNone = true) := by
      rintro (h1 | h2)
      · exact hne h1
      · simp at h2
    simp only [Do, hcond, if_false]

/-- Witness of C18: a non-nil work passed with the empty name is not executed
(its counter stays 0), and with a name it runs as under `std.Do`. -/
theorem package_do_filters_invalid_input_witness :
    ("" = "" ∨ some countingWork = none →
      Do steadyClock "" (some countingWork) { timing := std, ticks := 0, ext := 0 }
        = (Outcome.returned, { timing := std, ticks := 0, ext := 0 })) ∧
    ("fetch" ≠ "" →
      Do steadyClock "fetch" (some countingWork) { timing := std, ticks := 0, ext := 0 }
        = Timing.Do steadyClock "fetch" (some countingWork)
            { timing := std, ticks := 0, ext := 0 }) ∧
    (Do steadyClock "" (some countingWork) { timing := std, ticks := 0, ext := 0 }).2.ext = 0 ∧
    (Do steadyClock "fetch" (none : Option (Work Nat))
        { timing := std, ticks := 0, ext := 0 }).1 = Outcome.returned ∧
    (Do steadyClock "fetch" (some countingWork)
        { timing := std, ticks := 0, ext := 0 }).2.ext = 1 :=
  have hthm := package_do_filters_invalid_input steadyClock "" (some countingWork) countingWork
    { timing := std, ticks := 0, ext := 0 }
  have hthm2 := package_do_filters_invalid_input steadyClock "fetch" (some countingWork)
    countingWork { timing := std, ticks := 0, ext := 0 }
  ⟨hthm.1, hthm2.2, by decide, by decide, by decide⟩

/-! ## A fold touches only its own name -/

theorem waiting_methods_store (t : Timing) (method : String) (nano : Int) :
    (t.waiting method nano).methods
      = mapStore t.methods method (foldEntry (mapLookup t.methods method) nano) := by
  unfold Timing.waiting
  cases h : mapLookup t.methods method with
  | none => rfl
  | some w =>
    simp only [foldEntry]
    by_cases h1 : nano > w.Max <;> by_cases h2 : nano < w.Min <;> simp [h1, h2]

theorem waiting_lookup_same (t : Timing) (method : String) (nano : Int) :
    mapLookup (t.waiting method nano).methods method
      = some (foldEntry (mapLookup t.methods method) nano) := by
  rw [waiting_methods_store, mapLookup_mapStore_same]

theorem waiting_lookup_other (t : Timing) (method other : String) (nano : Int)
    (hne : other ≠ method) :
    mapLookup (t.waiting method nano).methods other = mapLookup t.methods other := by
  rw [waiting_methods_store, mapLookup_mapStore_other _ _ _ _ hne]

theorem waiting_keeps_names (t : Timing) (method k : String) (nano : Int)
    (h : mapLookup t.methods k ≠ none) :
    mapLookup (t.waiting method nano).methods k ≠ none := by
  by_cases hk : k = method
  · rw [hk, waiting_lookup_same]
    simp
  · rw [waiting_lookup_other t method k nano hk]
    exact h

theorem applyFolds_keeps_names (folds : List (String × Int)) :
    ∀ (t : Timing) (k : String), mapLookup t.methods k ≠ none →
      mapLookup (applyFolds folds t).methods k ≠ none := by
  induction folds with
  | nil =>
    intro t k h
    exact h
  | cons hd rest ih =>
    intro t k h
    obtain ⟨name, nano⟩ := hd
    exact ih _ k (waiting_keeps_names t name k nano h)

/-- C19. For every aggregator state, every name `n` and every sample `s`,
`waiting(n, s)` leaves the `Enable` flag unchanged and the entry of every name
`m != n` exactly as it was (the same entry, or still absent), and `n` itself is
present afterwards; so a fold removes no entry, and no sequence of folds does:
the set of names only grows. -/
theorem waiting_touches_only_its_name (t : Timing) (n : String) (s : Int) :
    (t.waiting n s).Enable = t.Enable ∧
    (∀ m : String, m ≠ n → mapLookup (t.waiting n s).methods m = mapLookup t.methods m) ∧
    mapLookup (t.waiting n s).methods n ≠ none ∧
    (∀ k : String, mapLookup t.methods k ≠ none → mapLookup (t.waiting n s).methods k ≠ none) ∧
    (∀ (folds : List (String × Int)) (k : String), mapLookup t.methods k ≠ none →
      mapLookup (applyFolds folds t).methods k ≠ none) := by
  refine ⟨waiting_Enable t n s, fun m hm => waiting_lookup_other t n m s hm, ?_,
    fun k hk => waiting_keeps_names t n k s hk,
    fun folds k hk => applyFolds_keeps_names folds t k hk⟩
  rw [waiting_lookup_same]
  simp

/-- Witness of C19: folding under "fetch" leaves "store" as it was and "load" absent. -/
theorem waiting_touches_only_its_name_witness :
    (sampleTiming.waiting "fetch" 9).Enable = sampleTiming.Enable ∧
    ("store" ≠ "fetch" →
      mapLookup (sampleTiming.waiting "fetch" 9).methods "store"
        = mapLookup sampleTiming.methods "store") ∧
    ("load" ≠ "fetch" →
      mapLookup (sampleTiming.waiting "fetch" 9).methods "load"
        = mapLookup sampleTiming.methods "load") ∧
    mapLookup sampleTiming.methods "load" = none ∧
    mapLookup (sampleTiming.waiting "fetch" 9).methods "fetch" ≠ none :=
  have hthm := waiting_touches_only_its_name sampleTiming "fetch" 9
  ⟨hthm.1, hthm.2.1 "store", hthm.2.1 "load", by decide, hthm.2.2.1⟩

/-! ## Folds commute -/

theorem foldEntry_comm (prev : Option Waiting) (a b : Int) :
    foldEntry (some (foldEntry prev a)) b = foldEntry (some (foldEntry prev b)) a := by
  cases prev with
  | none =>
    simp only [foldEntry]
    have hT : wrap64 (a + b) = wrap64 (b + a) := by rw [add_comm]
    have hmax : (if b > a then b else a) = (if a > b then a else b) := by
      by_cases h1 : b > a <;> by_cases h2 : a > b <;> simp only [h1, h2, if_true, if_false] <;>
        omega
    have hmin : (if b < a then b else a) = (if a < b then a else b) := by
      by_cases h1 : b < a <;> by_cases h2 : a < b <;> simp only [h1, h2, if_true, if_false] <;>
        omega
    rw [hT, hmax, hmin]
  | some w =>
    simp only [foldEntry]
    have hT : wrap64 (wrap64 (w.Total + a) + b) = wrap64 (wrap64 (w.Total + b) + a) := by
      rw [wrap64_wrap64_add, wrap64_wrap64_add]
      congr 1
      ring
    have hmax : (if b > (if a > w.Max then a else w.Max) then b
          else (if a > w.Max then a else w.Max))
        = (if a > (if b > w.Max then b else w.Max) then a
          else (if b > w.Max then b else w.Max)) := by
      by_cases h1 : a > w.Max <;> by_cases h2 : b > w.Max <;>
        simp only [h1, h2, if_true, if_false] <;>
        by_cases h3 : b > a <;> by_cases h4 : a > b <;>
        simp only [h3, h4, if_true, if_false] <;> omega
    have hmin : (if b < (if a < w.Min then a else w.Min) then b
          else (if a < w.Min then a else w.Min))
        = (if a < (if b < w.Min then b else w.Min) then a
          else (if b < w.Min then b else w.Min)) := by
      by_cases h1 : a < w.Min <;> by_cases h2 : b < w.Min <;>
        simp only [h1, h2, if_true, if_false] <;>
        by_cases h3 : b < a <;> by_cases h4 : a < b <;>
        simp only [h3, h4, if_true, if_false] <;> omega
    rw [hT, hmax, hmin]

theorem sameStats_refl (t : Timing) : sameStats t t := ⟨rfl, fun _ => rfl⟩

theorem sameStats_trans {t1 t2 t3 : Timing} (h12 : sameStats t1 t2) (h23 : sameStats t2 t3) :
    sameStats t1 t3 :=
  ⟨h12.1.trans h23.1, fun name => (h12.2 name).trans (h23.2 name)⟩

theorem waiting_sameStats {t1 t2 : Timing} (h : sameStats t1 t2) (method : String)
    (nano : Int) : sameStats (t1.waiting method nano) (t2.waiting method nano) := by
  refine ⟨?_, ?_⟩
  · rw [waiting_Enable, waiting_Enable]
    exact h.1
  · intro name
    by_cases hn : name = method
    · rw [hn, waiting_lookup_same, waiting_lookup_same, h.2 method]
    · rw [waiting_lookup_other _ _ _ _ hn, waiting_lookup_other _ _ _ _ hn]
      exact h.2 name

theorem waiting_comm (t : Timing) (n1 n2 : String) (a b : Int) :
    sameStats ((t.waiting n1 a).waiting n2 b) ((t.waiting n2 b).waiting n1 a) := by
  refine ⟨?_, ?_⟩
  · rw [waiting_Enable, waiting_Enable, waiting_Enable, waiting_Enable]
  · intro name
    by_cases h12 : n1 = n2
    · subst h12
      by_cases hn : name = n1
      · subst hn
        rw [waiting_lookup_same, waiting_lookup_same, waiting_lookup_same, waiting_lookup_same,
          foldEntry_comm]
      · rw [waiting_lookup_other _ _ _ _ hn, waiting_lookup_other _ _ _ _ hn,
          waiting_lookup_other _ _ _ _ hn, waiting_lookup_other _ _ _ _ hn]
    · have h21 : n2 ≠ n1 := fun h => h12 h.symm
      by_cases hn1 : name = n1
      · subst hn1
        rw [waiting_lookup_other _ _ _ _ h12, waiting_lookup_same, waiting_lookup_same,
          waiting_lookup_other _ _ _ _ h12]
      · by_cases hn2 : name = n2
        · subst hn2
          rw [waiting_lookup_same, waiting_lookup_other _ _ _ _ h21,
            waiting_lookup_other _ _ _ _ h21, waiting_lookup_same]
        · rw [waiting_lookup_other _ _ _ _ hn2, waiting_lookup_other _ _ _ _ hn1,
            waiting_lookup_other _ _ _ _ hn1, waiting_lookup_other _ _ _ _ hn2]

theorem applyFolds_sameStats (folds : List (String × Int)) :
    ∀ t1 t2 : Timing, sameStats t1 t2 → sameStats (applyFolds folds t1) (applyFolds folds t2) := by
  induction folds with
  | nil =>
    intro t1 t2 h
    exact h
  | cons hd rest ih =>
    intro t1 t2 h
    obtain ⟨name, nano⟩ := hd
    exact ih _ _ (waiting_sameStats h name nano)

theorem applyFolds_perm {l1 l2 : List (String × Int)} (hp : l1.Perm l2) :
    ∀ t : Timing, sameStats (applyFolds l1 t) (applyFolds l2 t) := by
  induction hp with
  | nil =>
    intro t
    exact sameStats_refl t
  | cons x _ ih =>
    intro t
    obtain ⟨name, nano⟩ := x
    exact ih (t.waiting name nano)
  | swap x y l =>
    intro t
    obtain ⟨n1, a⟩ := x
    obtain ⟨n2, b⟩ := y
    exact applyFolds_sameStats l _ _ (waiting_comm t n2 n1 b a)
  | trans _ _ ih1 ih2 =>
    intro t
    exact sameStats_trans (ih1 t) (ih2 t)

theorem mem_mapKeys_iff (m : Methods) (k : String) : k ∈ mapKeys m ↔ mapLookup m k ≠ none :=
  ⟨mapLookup_ne_none_of_mem_keys m k, mem_keys_of_mapLookup m k⟩

/-- C20. For every aggregator state, all names `n1`, `n2` (equal or
different) and all samples `a`, `b`, the state after `waiting(n1, a)` then
`waiting(n2, b)` and the state after `waiting(n2, b)` then `waiting(n1, a)`
have the same flag, the same keys and under every key the same `Count`,
`Total`, `Max`, `Min` (`Total` and `Count` in int64 wrap-around arithmetic);
hence two sequences of folds that are permutations of each other end with the
same statistics. -/
theorem waiting_folds_commute (t : Timing) (n1 n2 : String) (a b : Int)
    (l1 l2 : List (String × Int)) :
    ((t.waiting n1 a).waiting n2 b).Enable = ((t.waiting n2 b).waiting n1 a).Enable ∧
    (∀ k : String, k ∈ mapKeys ((t.waiting n1 a).waiting n2 b).methods
      ↔ k ∈ mapKeys ((t.waiting n2 b).waiting n1 a).methods) ∧
    (∀ k : String, mapLookup ((t.waiting n1 a).waiting n2 b).methods k
      = mapLookup ((t.waiting n2 b).waiting n1 a).methods k) ∧
    (l1.Perm l2 → sameStats (applyFolds l1 t) (applyFolds l2 t)) := by
  have h := waiting_comm t n1 n2 a b
  refine ⟨h.1, ?_, h.2, fun hp => applyFolds_perm hp t⟩
  intro k
  rw [mem_mapKeys_iff, mem_mapKeys_iff, h.2 k]

/-- Witness of C20: two orders of the same three folds. -/
theorem waiting_folds_commute_witness :
    List.Perm [("fetch", (5 : Int)), ("store", 7), ("fetch", -2)]
      [("fetch", -2), ("fetch", 5), ("store", 7)] ∧
    sameStats (applyFolds [("fetch", 5), ("store", 7), ("fetch", -2)] sampleTiming)
      (applyFolds [("fetch", -2), ("fetch", 5), ("store", 7)] sampleTiming) ∧
    mapLookup (applyFolds [("fetch", 5), ("store", 7), ("fetch", -2)] sampleTiming).methods
      "fetch" = some { Count := 4, Total := 10, Max := 5, Min := -2 } ∧
    mapLookup (applyFolds [("fetch", -2), ("fetch", 5), ("store", 7)] sampleTiming).methods
      "fetch" = some { Count := 4, Total := 10, Max := 5, Min := -2 } :=
  have hp : List.Perm [("fetch", (5 : Int)), ("store", 7), ("fetch", -2)]
      [("fetch", -2), ("fetch", 5), ("store", 7)] := by decide
  ⟨hp, (waiting_folds_commute sampleTiming "fetch" "store" 5 7 _ _).2.2.2 hp,
    by decide, by decide⟩

/-! ## No lost updates

The claim grants that the mutex makes every fold atomic, so a run of `K`
concurrent callers with `M` recordings each is a sequence of `K * M` calls of
`waiting`: an interleaving of the callers' sequences, in particular a
permutation of their concatenation. -/

/-- C15 (amended). For every `K` and `M` with `K * M >= 1` and every int64
duration `d` such that neither `K * M` nor `K * M * d` overflows int64: when `K`
callers each perform `M` recordings of duration `d` under the same name on an
initially empty enabled aggregator, then after every interleaving of the
(atomic) folds the entry of the name, the only entry of the mapping, has
`Count = K * M` and `Total = K * M * d` (and `Max = Min = d`). -/
theorem no_lost_updates (K M : Nat) (name : String) (d : Int) (sched : List Op)
    (hsched : sched.Perm (List.replicate K (List.replicate M (Op.waiting name d))).flatten)
    (hpos : 1 ≤ K * M)
    (hd : isInt64 d)
    (hcount : ((K * M : Nat) : Int) ≤ maxInt64)
    (htotal : isInt64 (((K * M : Nat) : Int) * d)) :
    (runOps sched (NewTiming true)).methods
      = [(name, { Count := ((K * M : Nat) : Int), Total := ((K * M : Nat) : Int) * d,
                  Max := d, Min := d })] ∧
    mapLookup (runOps sched (NewTiming true)).methods name
      = some { Count := ((K * M : Nat) : Int), Total := ((K * M : Nat) : Int) * d,
               Max := d, Min := d } := by
  rw [List.flatten_replicate_replicate] at hsched
  have hseq : sched = List.replicate (K * M) (Op.waiting name d) :=
    List.perm_replicate.mp hsched
  have hc : isInt64 ((K * M : Nat) : Int) := by
    unfold isInt64 minInt64
    constructor
    · have : (0 : Int) ≤ ((K * M : Nat) : Int) := Int.ofNat_nonneg _
      omega
    · exact hcount
  have hm := foldSamples_replicate_methods name d (K * M) (NewTiming true) (by omega) hd rfl
  rw [wrap64_of_isInt64 hc, wrap64_of_isInt64 htotal] at hm
  have hrun : (runOps sched (NewTiming true)).methods
      = [(name, { Count := ((K * M : Nat) : Int), Total := ((K * M : Nat) : Int) * d,
                  Max := d, Min := d })] := by
    rw [hseq, runOps_replicate_waiting]
    exact hm
  refine ⟨hrun, ?_⟩
  rw [hrun]
  simp only [mapLookup, if_true]

/-- Witness of C15: two callers with three recordings of 100 ns each, in the
order caller 1, caller 2, caller 1, caller 2, caller 1, caller 2. -/
theorem no_lost_updates_witness :
    List.Perm
      [Op.waiting "fetch" 100, Op.waiting "fetch" 100, Op.waiting "fetch" 100,
       Op.waiting "fetch" 100, Op.waiting "fetch" 100, Op.waiting "fetch" 100]
      (List.replicate 2 (List.replicate 3 (Op.waiting "fetch" 100))).flatten ∧
    1 ≤ 2 * 3 ∧ isInt64 100 ∧ (((2 * 3 : Nat) : Int) ≤ maxInt64) ∧
    isInt64 (((2 * 3 : Nat) : Int) * 100) ∧
    mapLookup (runOps
      [Op.waiting "fetch" 100, Op.waiting "fetch" 100, Op.waiting "fetch" 100,
       Op.waiting "fetch" 100, Op.waiting "fetch" 100, Op.waiting "fetch" 100]
      (NewTiming true)).methods "fetch"
      = some { Count := ((2 * 3 : Nat) : Int), Total := ((2 * 3 : Nat) : Int) * 100,
               Max := 100, Min := 100 } :=
  have hp : List.Perm
      [Op.waiting "fetch" 100, Op.waiting "fetch" 100, Op.waiting "fetch" 100,
       Op.waiting "fetch" 100, Op.waiting "fetch" 100, Op.waiting "fetch" 100]
      (List.replicate 2 (List.replicate 3 (Op.waiting "fetch" 100))).flatten := by decide
  ⟨hp, by decide, by decide, by decide, by decide,
    (no_lost_updates 2 3 "fetch" 100 _ hp (by decide) (by decide) (by decide) (by decide)).2⟩

/-- Counterexample to C15 as stated ("for every K, M and duration d"):
with `K = 0` callers nothing is recorded and the name has no entry at all;
with `K = 1`, `M = 2` and `d = 2^63 - 1` the entry has `Count = 2` but
`Total = -2`, not `2 d`; with `K = 2^63`, `M = 1` and `d = 0` the entry has
`Count = -2^63`, not `2^63`. -/
theorem lost_update_claim_needs_provisos :
    mapLookup (runOps (List.replicate 0 (List.replicate 5 (Op.waiting "m" 100))).flatten
      (NewTiming true)).methods "m" = none ∧
    mapLookup (runOps
      (List.replicate 1 (List.replicate 2 (Op.waiting "m" 9223372036854775807))).flatten
      (NewTiming true)).methods "m"
      = some { Count := 2, Total := -2, Max := 9223372036854775807,
               Min := 9223372036854775807 } ∧
    (-2 : Int) ≠ ((1 * 2 : Nat) : Int) * 9223372036854775807 ∧
    mapLookup (runOps
      (List.replicate 9223372036854775808 (List.replicate 1 (Op.waiting "m" 0))).flatten
      (NewTiming true)).methods "m"
      = some { Count := -9223372036854775808, Total := 0, Max := 0, Min := 0 } := by
  refine ⟨by decide, by decide, by decide, ?_⟩
  have hz : isInt64 0 := by decide
  have h1 : wrap64 (((9223372036854775808 * 1 : Nat) : Nat) : Int) = -9223372036854775808 := by
    decide
  have h2 : wrap64 ((((9223372036854775808 * 1 : Nat) : Nat) : Int) * 0) = 0 := by decide
  have hm := foldSamples_replicate "m" 0 (9223372036854775808 * 1) (NewTiming true)
    (by decide) hz rfl
  rw [h1, h2] at hm
  rw [List.flatten_replicate_replicate, runOps_replicate_waiting]
  exact hm

end timing
